import Mathlib

/-!
Verification of the vintage-npm-registry metadata-filter plugin.

This file gives a shallow embedding, in Lean, of the plugin's rule parsing
(`parse-utils.ts`, the denylist line parser), the pure metadata filter
(`metadata-filter.ts`: date filtering, allowlist restoration, denylist
removal, dist-tag repair, time-map reconstruction), the filter entry point
(`index.ts`: fast path, all-versions-filtered signalling) and the file
watcher's state machine (`file-watcher.ts`), together with theorems about
the behaviour of those functions.

JavaScript records (plain objects used as string-keyed maps) are embedded
as association lists in insertion order; `Record[k]` lookup is
`List.lookup`, and JS truthiness of string values (the empty string is
falsy) is modelled explicitly where the source relies on it.  JS `Date`
values are embedded as their epoch-millisecond integers, and the `Date`
constructor on the ISO-8601 strings the system consumes is modelled by an
executable parser.  The behaviour of the third-party `semver` library
(whose code is not part of this repository) is modelled by an executable
semantic-version parser, comparator and range matcher covering the
constructs the plugin uses.
-/

namespace Vintage

/-! ## Association-list records -/

/-- The manifest stored under one version key of the `versions` record
(`types.ts`, `VersionManifest`): a `name`, a `version`, and arbitrary
further properties passed through unmodified. -/
structure VersionManifest where
  name : String
  version : String
  rest : List (String × String)
deriving DecidableEq, Repr

/-- Package metadata (`types.ts`, `PackageMetadata`): `name`, `versions`,
`dist-tags`, an optional `time` record, and arbitrary extra properties
(`rest`) that the filter passes through unchanged. -/
structure PackageMetadata where
  name : String
  versions : List (String × VersionManifest)
  distTags : List (String × String)
  time : Option (List (String × String))
  rest : List (String × String)
deriving DecidableEq, Repr

/-- JS object assignment `r[k] = v`: overwrite in place if the key exists,
otherwise append the new pair. -/
def recordSet (r : List (String × α)) (k : String) (v : α) : List (String × α) :=
  if (r.lookup k).isSome then
    r.map (fun p => if p.1 = k then (k, v) else p)
  else
    r ++ [(k, v)]

/-- JS truthiness of an optional string: `undefined` and `""` are falsy. -/
def jsFalsyStr : Option String → Bool
  | none => true
  | some s => s = ""

/-! ## JS string primitives used by the rule parser -/

/-- Whitespace recognised by `String.prototype.trim` (ASCII part). -/
def jsIsSpace (c : Char) : Bool :=
  c = ' ' ∨ c = '\t' ∨ c = '\n' ∨ c = '\r' ∨ c = '\x0b' ∨ c = '\x0c'

/-- `String.prototype.trim` on a character list. -/
def jsTrimList (cs : List Char) : List Char :=
  ((cs.dropWhile jsIsSpace).reverse.dropWhile jsIsSpace).reverse

/-- `String.prototype.trim`. -/
def jsTrim (s : String) : String :=
  String.mk (jsTrimList s.toList)

/-- Split a character list on the JS regular expression `/\r?\n/`
(used by `parseFileContent` to split file content into lines). -/
def splitCRLF : List Char → List (List Char)
  | [] => [[]]
  | '\r' :: '\n' :: rest => [] :: splitCRLF rest
  | '\n' :: rest => [] :: splitCRLF rest
  | c :: rest =>
    match splitCRLF rest with
    | [] => [[c]]
    | l :: ls => (c :: l) :: ls

/-- `content.split(/\r?\n/)`. -/
def splitLines (s : String) : List String :=
  (splitCRLF s.toList).map String.mk

/-! ## The JS `Date` constructor on ISO-8601 strings

`new Date(str)` is modelled as an optional epoch-millisecond integer:
`none` stands for an invalid date (`isNaN(d.getTime())`).  The model
covers the ISO-8601 calendar-date and date-time forms the rule files and
npm `time` records use; out-of-range components (such as month `99`)
yield an invalid date, exactly as in JS. -/

/-- Decimal digits to a number (all characters must be digits). -/
def digitsVal (cs : List Char) : Nat :=
  cs.foldl (fun acc c => acc * 10 + (c.toNat - 48)) 0

/-- A run of exactly `n` digits. -/
def allDigits (cs : List Char) : Bool :=
  cs.all Char.isDigit

/-- Days from the civil epoch 1970-01-01 for a (valid) Gregorian date.
Standard days-from-civil computation; all divisions act on nonnegative
values for the years in scope. -/
def daysFromCivil (y m d : Int) : Int :=
  let yAdj : Int := if m ≤ 2 then y - 1 else y
  let era : Int := (if 0 ≤ yAdj then yAdj else yAdj - 399) / 400
  let yoe : Int := yAdj - era * 400
  let mp : Int := if m > 2 then m - 3 else m + 9
  let doy : Int := (153 * mp + 2) / 5 + d - 1
  let doe : Int := yoe * 365 + yoe / 4 - yoe / 100 + doy
  era * 146097 + doe - 719468

/-- Number of days in a month of the Gregorian calendar. -/
def daysInMonth (y m : Nat) : Nat :=
  if m = 2 then
    if y % 4 = 0 ∧ (y % 100 ≠ 0 ∨ y % 400 = 0) then 29 else 28
  else if m = 4 ∨ m = 6 ∨ m = 9 ∨ m = 11 then 30
  else 31

/-- Parse the optional time-of-day / zone suffix after `YYYY-MM-DD`,
returning the millisecond offset into the day (zone offsets are applied
as a subtraction).  `none` when the suffix is malformed or out of range. -/
def parseTimeSuffix : List Char → Option Int
  | [] => some 0
  | 'T' :: rest =>
    match rest with
    | h1 :: h2 :: ':' :: m1 :: m2 :: rest2 =>
      if allDigits [h1, h2] ∧ allDigits [m1, m2] then
        let hh := digitsVal [h1, h2]
        let mm := digitsVal [m1, m2]
        let base : Option Int :=
          match rest2 with
          | [] => some 0
          | ':' :: s1 :: s2 :: rest3 =>
            if allDigits [s1, s2] then
              let ss := digitsVal [s1, s2]
              let msPart : Option Int :=
                match rest3 with
                | [] => some 0
                | '.' :: f1 :: f2 :: f3 :: rest4 =>
                  if allDigits [f1, f2, f3] ∧ (rest4 = [] ∨ rest4 = ['Z']) then
                    some (digitsVal [f1, f2, f3])
                  else none
                | ['Z'] => some 0
                | _ => none
              if ss ≤ 59 then msPart.map (fun f => (ss : Int) * 1000 + f) else none
            else none
          | ['Z'] => some 0
          | _ => none
        if hh ≤ 23 ∧ mm ≤ 59 then
          base.map (fun b => ((hh : Int) * 60 + (mm : Int)) * 60000 + b)
        else none
      else none
    | _ => none
  | _ => none

/-- Model of the JS `Date` constructor on the ISO-8601 strings the plugin
consumes: epoch milliseconds, or `none` for an invalid date. -/
def jsDateParse (s : String) : Option Int :=
  match s.toList with
  | y1 :: y2 :: y3 :: y4 :: '-' :: m1 :: m2 :: '-' :: d1 :: d2 :: rest =>
    if allDigits [y1, y2, y3, y4, m1, m2, d1, d2] then
      let y := digitsVal [y1, y2, y3, y4]
      let m := digitsVal [m1, m2]
      let d := digitsVal [d1, d2]
      if 1 ≤ m ∧ m ≤ 12 ∧ 1 ≤ d ∧ d ≤ daysInMonth y m then
        (parseTimeSuffix rest).map (fun offset =>
          daysFromCivil (y : Int) (m : Int) (d : Int) * 86400000 + offset)
      else none
    else none
  | _ => none

/-! ## Generic comparator helpers

The `semver` library's version ordering is built below as a lexicographic
composition of primitive comparators, so that symmetry and transitivity
(`Batteries.OrientedCmp` / `Batteries.TransCmp`) follow compositionally. -/

/-- Comparator obtained by mapping through a function. -/
def cmpOn (cmp : β → β → Ordering) (f : α → β) : α → α → Ordering :=
  fun a b => cmp (f a) (f b)

instance cmpOnOriented {cmp : β → β → Ordering} [h : Batteries.OrientedCmp cmp]
    {f : α → β} : Batteries.OrientedCmp (cmpOn cmp f) where
  symm x y := h.symm (f x) (f y)

instance cmpOnTrans {cmp : β → β → Ordering} [h : Batteries.TransCmp cmp]
    {f : α → β} : Batteries.TransCmp (cmpOn cmp f) where
  le_trans h1 h2 := h.le_trans h1 h2

/-- Lexicographic comparison of lists: element-wise, with a strict
prefix ordered first (the `semver` prerelease-identifier-list rule). -/
def listCompareWith (cmp : α → α → Ordering) : List α → List α → Ordering
  | [], [] => .eq
  | [], _ :: _ => .lt
  | _ :: _, [] => .gt
  | a :: l1, b :: l2 => (cmp a b).then (listCompareWith cmp l1 l2)

instance listCompareWithOriented {cmp : α → α → Ordering}
    [h : Batteries.OrientedCmp cmp] : Batteries.OrientedCmp (listCompareWith cmp) where
  symm x y := by
    induction x generalizing y with
    | nil => cases y <;> rfl
    | cons a l1 ih =>
      cases y with
      | nil => rfl
      | cons b l2 =>
        show ((cmp a b).then (listCompareWith cmp l1 l2)).swap = _
        rw [Ordering.swap_then, h.symm, ih]
        rfl

instance listCompareWithTrans {cmp : α → α → Ordering}
    [h : Batteries.TransCmp cmp] : Batteries.TransCmp (listCompareWith cmp) where
  le_trans := by
    intro x y z h1 h2
    induction x generalizing y z with
    | nil => cases z <;> simp [listCompareWith]
    | cons a l1 ih =>
      cases y with
      | nil => simp [listCompareWith] at h1
      | cons b l2 =>
        cases z with
        | nil => simp [listCompareWith] at h2
        | cons c l3 =>
          simp only [listCompareWith, ne_eq, Ordering.then_eq_gt, not_or, not_and] at h1 h2 ⊢
          obtain ⟨hab, hab2⟩ := h1
          obtain ⟨hbc, hbc2⟩ := h2
          constructor
          · exact h.le_trans hab hbc
          · intro hac
            rcases e1 : cmp a b with _ | _ | _
            · exact absurd (Batteries.TransCmp.lt_le_trans e1 hbc) (by simp [hac])
            · rcases e2 : cmp b c with _ | _ | _
              · exact absurd (Batteries.TransCmp.le_lt_trans hab e2) (by simp [hac])
              · exact ih (hab2 e1) (hbc2 e2)
              · exact absurd e2 hbc
            · exact absurd e1 hab

/-- A comparator's non-strict Boolean order (`cmp a b ≠ .gt`), used to
model JS `Array.prototype.sort` with that comparator. -/
def cmpLeB (cmp : α → α → Ordering) (a b : α) : Bool :=
  match cmp a b with
  | .gt => false
  | _ => true

theorem cmpLeB_iff (cmp : α → α → Ordering) (a b : α) :
    cmpLeB cmp a b = true ↔ cmp a b ≠ .gt := by
  unfold cmpLeB
  rcases cmp a b with _ | _ | _ <;> simp

theorem cmpLeB_total {cmp : α → α → Ordering} [h : Batteries.OrientedCmp cmp]
    (a b : α) : cmpLeB cmp a b = true ∨ cmpLeB cmp b a = true := by
  rw [cmpLeB_iff, cmpLeB_iff]
  by_cases e : cmp a b = .gt
  · right
    rw [Batteries.OrientedCmp.cmp_eq_gt] at e
    simp [e]
  · left; exact e

theorem cmpLeB_trans {cmp : α → α → Ordering} [h : Batteries.TransCmp cmp]
    {a b c : α} (h1 : cmpLeB cmp a b = true) (h2 : cmpLeB cmp b c = true) :
    cmpLeB cmp a c = true := by
  rw [cmpLeB_iff] at h1 h2 ⊢
  exact h.le_trans h1 h2

theorem cmpLeB_refl {cmp : α → α → Ordering} [h : Batteries.OrientedCmp cmp]
    (a : α) : cmpLeB cmp a a = true := by
  have e : cmp a a = Ordering.eq := Batteries.OrientedCmp.cmp_refl
  rw [cmpLeB_iff, e]
  simp

/-! ## The `semver` library model: versions

`semver.parse` / `semver.valid` / `semver.compare` are modelled on the
strict semantic-version grammar: `[v]MAJOR.MINOR.PATCH[-prerelease][+build]`
with numeric components free of leading zeros.  Alphanumeric prerelease
identifiers are compared by Lean's `String` order (codepoint-lexicographic,
matching the JS string comparison the library performs on ASCII
identifiers). -/

/-- A parsed semantic version. -/
structure SemVer where
  major : Nat
  minor : Nat
  patch : Nat
  prerelease : List String
  build : List String
deriving DecidableEq, Repr

/-- Split a character list on a separator character. -/
def splitOnChar (sep : Char) : List Char → List (List Char)
  | [] => [[]]
  | c :: rest =>
    if c = sep then [] :: splitOnChar sep rest
    else
      match splitOnChar sep rest with
      | [] => [[c]]
      | l :: ls => (c :: l) :: ls

/-- Split at the first occurrence of a separator character, if any. -/
def breakOnChar (sep : Char) : List Char → List Char × Option (List Char)
  | [] => ([], none)
  | c :: rest =>
    if c = sep then ([], some rest)
    else
      match breakOnChar sep rest with
      | (l, r) => (c :: l, r)

/-- A strict numeric identifier: digits only, no leading zero. -/
def numericIdent (cs : List Char) : Option Nat :=
  if !cs.isEmpty && allDigits cs && (cs = ['0'] || cs.head? ≠ some '0') then
    some (digitsVal cs)
  else none

/-- Characters allowed in prerelease/build identifiers. -/
def isIdentChar (c : Char) : Bool :=
  c.isDigit || c.isAlpha || c = '-'

/-- A valid prerelease identifier: nonempty, identifier characters only,
and if fully numeric then without leading zeros. -/
def validPreIdent (cs : List Char) : Bool :=
  !cs.isEmpty && cs.all isIdentChar && (!allDigits cs || (numericIdent cs).isSome)

/-- A valid build identifier: nonempty, identifier characters only. -/
def validBuildIdent (cs : List Char) : Bool :=
  !cs.isEmpty && cs.all isIdentChar

/-- Model of `semver.parse` (strict mode; leading `v` and surrounding
whitespace accepted, as in the library). -/
def semverParse (s : String) : Option SemVer :=
  let cs0 := jsTrimList s.toList
  let cs :=
    match cs0 with
    | 'v' :: rest => rest
    | _ => cs0
  let (beforeBuild, buildPart) := breakOnChar '+' cs
  let buildIds : Option (List String) :=
    match buildPart with
    | none => some []
    | some b =>
      let ids := splitOnChar '.' b
      if ids.all validBuildIdent then some (ids.map String.mk) else none
  let (core, prePart) := breakOnChar '-' beforeBuild
  let preIds : Option (List String) :=
    match prePart with
    | none => some []
    | some p =>
      let ids := splitOnChar '.' p
      if ids.all validPreIdent then some (ids.map String.mk) else none
  match splitOnChar '.' core with
  | [ma, mi, pa] =>
    match numericIdent ma, numericIdent mi, numericIdent pa, preIds, buildIds with
    | some verMa, some verMi, some verPa, some pre, some bld =>
      some ⟨verMa, verMi, verPa, pre, bld⟩
    | _, _, _, _, _ => none
  | _ => none

/-- Model of `semver.valid` as a predicate. -/
def semverValid (s : String) : Bool :=
  (semverParse s).isSome

/-- Is a prerelease identifier fully numeric? -/
def identIsNum (s : String) : Bool :=
  !s.toList.isEmpty && allDigits s.toList

/-- Sort key: numeric identifiers order before alphanumeric ones. -/
def identRankKey (s : String) : Nat :=
  if identIsNum s then 0 else 1

/-- Sort key: value of a numeric identifier. -/
def identNumKey (s : String) : Nat :=
  if identIsNum s then digitsVal s.toList else 0

/-- Sort key: an alphanumeric identifier compares as a string. -/
def identStrKey (s : String) : String :=
  if identIsNum s then "" else s

/-- `semver` comparison of single prerelease identifiers: numeric
identifiers compare numerically and order before alphanumeric ones, which
compare as strings. -/
def compareIdent : String → String → Ordering :=
  compareLex (cmpOn compare identRankKey)
    (compareLex (cmpOn compare identNumKey) (cmpOn compare identStrKey))

/-- Sort key: a version without prerelease orders after one with. -/
def preRank (l : List String) : Nat :=
  if l.isEmpty then 1 else 0

/-- `semver` comparison of prerelease identifier lists, including the rule
that an empty list (a release) orders after any nonempty list. -/
def preCompare : List String → List String → Ordering :=
  compareLex (cmpOn compare preRank) (listCompareWith compareIdent)

/-- Model of `semver.compare`: major, minor, patch, then prerelease;
build metadata is ignored. -/
def semverCompare : SemVer → SemVer → Ordering :=
  compareLex (cmpOn compare SemVer.major)
    (compareLex (cmpOn compare SemVer.minor)
      (compareLex (cmpOn compare SemVer.patch) (cmpOn preCompare SemVer.prerelease)))

instance : Batteries.TransCmp compareIdent :=
  inferInstanceAs (Batteries.TransCmp (compareLex _ _))

instance : Batteries.TransCmp preCompare :=
  inferInstanceAs (Batteries.TransCmp (compareLex _ _))

instance : Batteries.TransCmp semverCompare :=
  inferInstanceAs (Batteries.TransCmp (compareLex _ _))

/-- `semver.compare` on version strings, defined (as the plugin uses it)
only on strings that parse; unparsable strings are compared arbitrarily
but consistently. -/
def semverParseD (s : String) : SemVer :=
  (semverParse s).getD ⟨0, 0, 0, [], []⟩

/-- String-level `semver.compare`, via `semverParseD`. -/
def semverCompareStr : String → String → Ordering :=
  cmpOn semverCompare semverParseD

instance : Batteries.TransCmp semverCompareStr :=
  inferInstanceAs (Batteries.TransCmp (cmpOn _ _))

/-! ## The `semver` library model: ranges

Model of `semver.satisfies(version, range)`: the range grammar covers the
constructs the plugin's rule files use (plain versions, comparators
`< <= > >= =`, caret, tilde, x-ranges, hyphen ranges, `||` alternatives).
An invalid range — in particular any expression that is not valid range
syntax, such as an arbitrary non-semver string — matches nothing, and an
unparsable version string satisfies nothing, exactly as in the library
(whose `satisfies` returns `false` instead of throwing in both cases).
Prerelease versions satisfy a range only when one of its comparators
carries a prerelease with the same major.minor.patch triple. -/

/-- Comparator operators of the range grammar. -/
inductive RangeOp where
  | eqOp | ltOp | leOp | gtOp | geOp | caretOp | tildeOp
deriving DecidableEq, Repr

/-- A version pattern in a comparator: components may be wildcards
(`x`, `X`, `*` or simply missing). -/
structure WildVer where
  major : Option Nat
  minor : Option Nat
  patch : Option Nat
  pre : List String
deriving DecidableEq, Repr

/-- Split a character list on the two-character alternative separator. -/
def splitOnPipes : List Char → List (List Char)
  | [] => [[]]
  | '|' :: '|' :: rest => [] :: splitOnPipes rest
  | c :: rest =>
    match splitOnPipes rest with
    | [] => [[c]]
    | l :: ls => (c :: l) :: ls

/-- Split a character list into whitespace-separated tokens. -/
def splitWs (cs : List Char) : List (List Char) :=
  ((splitOnChar ' ' (cs.map (fun c => if jsIsSpace c then ' ' else c))).filter
    (fun t => !t.isEmpty))

/-- One wildcard component: a number, or `x`/`X`/`*` for "any". -/
def parseXr (cs : List Char) : Option (Option Nat) :=
  if cs = ['x'] ∨ cs = ['X'] ∨ cs = ['*'] then some none
  else (numericIdent cs).map some

/-- Parse a (possibly wildcarded) version pattern. -/
def parseWildVer (cs0 : List Char) : Option WildVer :=
  let cs :=
    match cs0 with
    | 'v' :: rest => rest
    | _ => cs0
  let (beforeBuild, buildPart) := breakOnChar '+' cs
  let buildOk : Bool :=
    match buildPart with
    | none => true
    | some b => (splitOnChar '.' b).all validBuildIdent
  let (core, prePart) := breakOnChar '-' beforeBuild
  let preIds : Option (List String) :=
    match prePart with
    | none => some []
    | some p =>
      let ids := splitOnChar '.' p
      if ids.all validPreIdent then some (ids.map String.mk) else none
  if !buildOk then none
  else
    match preIds with
    | none => none
    | some pre =>
      match splitOnChar '.' core with
      | [a] =>
        if pre.isEmpty then (parseXr a).map (fun x => ⟨x, none, none, []⟩) else none
      | [a, b] =>
        if pre.isEmpty then
          match parseXr a, parseXr b with
          | some x, some y => some ⟨x, y, none, []⟩
          | _, _ => none
        else none
      | [a, b, c] =>
        match parseXr a, parseXr b, parseXr c with
        | some x, some y, some z => some ⟨x, y, z, pre⟩
        | _, _, _ => none
      | _ => none

/-- Parse one comparator token: an optional operator followed by a
version pattern. -/
def parseComparator (cs : List Char) : Option (RangeOp × WildVer) :=
  let (op, rest) :=
    match cs with
    | '>' :: '=' :: r => (RangeOp.geOp, r)
    | '<' :: '=' :: r => (RangeOp.leOp, r)
    | '>' :: r => (RangeOp.gtOp, r)
    | '<' :: r => (RangeOp.ltOp, r)
    | '=' :: r => (RangeOp.eqOp, r)
    | '^' :: r => (RangeOp.caretOp, r)
    | '~' :: '>' :: r => (RangeOp.tildeOp, r)
    | '~' :: r => (RangeOp.tildeOp, r)
    | r => (RangeOp.eqOp, r)
  (parseWildVer rest).map (fun w => (op, w))

/-- The concrete lower-bound version of a pattern (wildcards as zero). -/
def wvLower (w : WildVer) : SemVer :=
  ⟨w.major.getD 0, w.minor.getD 0, w.patch.getD 0, w.pre, []⟩

/-- Does a version meet one comparator (ignoring the prerelease gate)? -/
def testComparator (op : RangeOp) (w : WildVer) (v : SemVer) : Bool :=
  match w.major with
  | none => true
  | some verMa =>
    match op with
    | .eqOp =>
      v.major = verMa &&
      (match w.minor with
       | none => true
       | some verMi =>
         v.minor = verMi &&
         (match w.patch with
          | none => true
          | some verPa =>
            v.patch = verPa && preCompare v.prerelease w.pre = .eq))
    | .geOp => semverCompare v (wvLower w) ≠ .lt
    | .gtOp =>
      match w.minor, w.patch with
      | some _, some _ => semverCompare v (wvLower w) = .gt
      | some verMi, none => semverCompare v ⟨verMa, verMi + 1, 0, [], []⟩ ≠ .lt
      | none, _ => semverCompare v ⟨verMa + 1, 0, 0, [], []⟩ ≠ .lt
    | .leOp =>
      match w.minor, w.patch with
      | some _, some _ => semverCompare v (wvLower w) ≠ .gt
      | some verMi, none => semverCompare v ⟨verMa, verMi + 1, 0, [], []⟩ = .lt
      | none, _ => semverCompare v ⟨verMa + 1, 0, 0, [], []⟩ = .lt
    | .ltOp => semverCompare v (wvLower w) = .lt
    | .caretOp =>
      let upper : SemVer :=
        match w.minor, w.patch with
        | none, _ => ⟨verMa + 1, 0, 0, [], []⟩
        | some verMi, none =>
          if verMa > 0 then ⟨verMa + 1, 0, 0, [], []⟩ else ⟨0, verMi + 1, 0, [], []⟩
        | some verMi, some verPa =>
          if verMa > 0 then ⟨verMa + 1, 0, 0, [], []⟩
          else if verMi > 0 then ⟨0, verMi + 1, 0, [], []⟩
          else ⟨0, 0, verPa + 1, [], []⟩
      semverCompare v (wvLower w) ≠ .lt && semverCompare v upper = .lt
    | .tildeOp =>
      let upper : SemVer :=
        match w.minor with
        | none => ⟨verMa + 1, 0, 0, [], []⟩
        | some verMi => ⟨verMa, verMi + 1, 0, [], []⟩
      semverCompare v (wvLower w) ≠ .lt && semverCompare v upper = .lt

/-- The prerelease gate: this comparator carries a prerelease with the
same major.minor.patch triple as the version. -/
def gatingComparator (w : WildVer) (v : SemVer) : Bool :=
  match w.major, w.minor, w.patch with
  | some verMa, some verMi, some verPa =>
    !w.pre.isEmpty && verMa = v.major && verMi = v.minor && verPa = v.patch
  | _, _, _ => false

/-- Does a version satisfy one `||`-alternative (a comparator set)? -/
def testAlt (comps : List (RangeOp × WildVer)) (v : SemVer) : Bool :=
  comps.all (fun c => testComparator c.1 c.2 v) &&
  (v.prerelease.isEmpty || comps.any (fun c => gatingComparator c.2 v))

/-- Parse one `||`-alternative: whitespace-separated comparators, or a
hyphen range. -/
def parseAlt (cs : List Char) : Option (List (RangeOp × WildVer)) :=
  let toks := splitWs cs
  match toks with
  | [a, ['-'], b] => do
    let wa ← parseWildVer a
    let wb ← parseWildVer b
    pure [(RangeOp.geOp, wa), (RangeOp.leOp, wb)]
  | _ =>
    if toks.any (fun t => t = ['-']) then none
    else toks.mapM parseComparator

/-- Parse a range expression; `none` is an invalid range. -/
def parseRange (r : String) : Option (List (List (RangeOp × WildVer))) :=
  (splitOnPipes r.toList).mapM parseAlt

/-- Model of `semver.validRange` as a predicate. -/
def semverValidRange (r : String) : Bool :=
  (parseRange r).isSome

/-- Model of `semver.satisfies(version, range)`. -/
def semverSatisfies (version range : String) : Bool :=
  match semverParse version, parseRange range with
  | some v, some alts => alts.any (fun comps => testAlt comps v)
  | _, _ => false

/-! ## Sorting (model of JS `Array.prototype.sort`) and list lemmas -/

/-- Insert into a sorted list (ascending w.r.t. `le`). -/
def insertSorted (le : α → α → Bool) (a : α) : List α → List α
  | [] => [a]
  | b :: l => if le a b then a :: b :: l else b :: insertSorted le a l

/-- Model of JS `array.sort(comparator)`: an ascending sort by `le`. -/
def sortBy (le : α → α → Bool) (l : List α) : List α :=
  l.foldr (insertSorted le) []

theorem mem_insertSorted (le : α → α → Bool) (a x : α) (l : List α) :
    x ∈ insertSorted le a l ↔ x = a ∨ x ∈ l := by
  induction l with
  | nil => simp [insertSorted]
  | cons b l ih =>
    simp only [insertSorted]
    split
    · simp [or_comm, or_assoc, or_left_comm]
    · simp [ih]
      tauto

theorem mem_sortBy (le : α → α → Bool) (x : α) (l : List α) :
    x ∈ sortBy le l ↔ x ∈ l := by
  induction l with
  | nil => simp [sortBy]
  | cons a l ih =>
    show x ∈ insertSorted le a (sortBy le l) ↔ _
    rw [mem_insertSorted]
    simp [ih]

theorem insertSorted_ne_nil (le : α → α → Bool) (a : α) (l : List α) :
    insertSorted le a l ≠ [] := by
  cases l with
  | nil => simp [insertSorted]
  | cons b l =>
    simp only [insertSorted]
    split <;> simp

theorem getLast?_cons_of_ne_nil (b : α) (t : List α) (h : t ≠ []) :
    (b :: t).getLast? = t.getLast? := by
  cases t with
  | nil => exact absurd rfl h
  | cons c t2 => exact List.getLast?_cons_cons ..

theorem insertSorted_max (le : α → α → Bool)
    (htot : ∀ x y : α, le x y = true ∨ le y x = true)
    (htrans : ∀ {x y z : α}, le x y = true → le y z = true → le x z = true)
    (a : α) (l : List α) (m : α) (hm : l.getLast? = some m)
    (hmax : ∀ x ∈ l, le x m = true) :
    (insertSorted le a l).getLast? = some (if le a m then m else a) ∧
      ∀ x ∈ insertSorted le a l, le x (if le a m then m else a) = true := by
  have hrefl : ∀ x : α, le x x = true := fun x => (htot x x).elim id id
  induction l generalizing m with
  | nil => simp at hm
  | cons b l ih =>
    cases l with
    | nil =>
      simp only [List.getLast?_singleton, Option.some.injEq] at hm
      subst hm
      by_cases hab : le a b = true
      · simp only [insertSorted, hab, if_true]
        refine ⟨by simp, ?_⟩
        intro x hx
        rcases List.mem_cons.1 hx with rfl | hx2
        · exact hab
        · simp at hx2
          subst hx2
          exact hrefl x
      · have hab2 : le a b = false := by simpa using hab
        simp only [insertSorted, hab2, Bool.false_eq_true, if_false]
        refine ⟨by simp, ?_⟩
        intro x hx
        have hx2 : x = b ∨ x = a := by simpa using hx
        rcases hx2 with h1 | h1 <;> rw [h1]
        · exact (htot a b).resolve_left (by simp [hab2])
        · exact hrefl a
    | cons c l2 =>
      have hm2 : (c :: l2).getLast? = some m := by
        rw [List.getLast?_cons_cons] at hm
        exact hm
      have hmax2 : ∀ x ∈ c :: l2, le x m = true := fun x hx =>
        hmax x (List.mem_cons_of_mem b hx)
      have hbm : le b m = true := hmax b (List.mem_cons_self b _)
      by_cases hab : le a b = true
      · have ham : le a m = true := htrans hab hbm
        have e : insertSorted le a (b :: c :: l2) = a :: b :: c :: l2 := by
          simp only [insertSorted, hab, if_true]
        rw [e, ham]
        simp only [if_true]
        refine ⟨by rw [List.getLast?_cons_cons, List.getLast?_cons_cons, hm2], ?_⟩
        intro x hx
        rcases List.mem_cons.1 hx with rfl | hx2
        · exact ham
        · exact hmax x hx2
      · have hab2 : le a b = false := by simpa using hab
        have e : insertSorted le a (b :: c :: l2) = b :: insertSorted le a (c :: l2) := by
          simp only [insertSorted, hab2, Bool.false_eq_true, if_false]
        rw [e]
        obtain ⟨ih1, ih2⟩ := ih m hm2 hmax2
        refine ⟨?_, ?_⟩
        · rw [getLast?_cons_of_ne_nil _ _ (insertSorted_ne_nil le a (c :: l2))]
          exact ih1
        · intro x hx
          rcases List.mem_cons.1 hx with rfl | hx2
          · by_cases ham : le a m = true
            · simpa [ham] using hbm
            · have ham2 : le a m = false := by simpa using ham
              have hma : le m a = true := (htot a m).resolve_left (by simp [ham2])
              simp only [ham2, Bool.false_eq_true, if_false]
              exact htrans hbm hma
          · exact ih2 x hx2

theorem sortBy_max (le : α → α → Bool)
    (htot : ∀ x y : α, le x y = true ∨ le y x = true)
    (htrans : ∀ {x y z : α}, le x y = true → le y z = true → le x z = true)
    (l : List α) (hl : l ≠ []) :
    ∃ m, (sortBy le l).getLast? = some m ∧ m ∈ l ∧ ∀ x ∈ l, le x m = true := by
  have hrefl : ∀ x : α, le x x = true := fun x => (htot x x).elim id id
  induction l with
  | nil => exact absurd rfl hl
  | cons a l ih =>
    cases l with
    | nil =>
      refine ⟨a, by simp [sortBy, insertSorted], by simp, ?_⟩
      intro x hx
      simp at hx
      subst hx
      exact hrefl x
    | cons b l2 =>
      obtain ⟨m, h1, h2, h3⟩ := ih (by simp)
      have h3s : ∀ x ∈ sortBy le (b :: l2), le x m = true := fun x hx =>
        h3 x ((mem_sortBy le x (b :: l2)).1 hx)
      obtain ⟨g1, g2⟩ := insertSorted_max le htot htrans a (sortBy le (b :: l2)) m h1 h3s
      refine ⟨if le a m then m else a, g1, ?_, ?_⟩
      · by_cases ham : le a m = true
        · simp only [ham, if_true]
          exact List.mem_cons_of_mem a h2
        · have ham2 : le a m = false := by simpa using ham
          simp [ham2]
      · intro x hx
        rcases List.mem_cons.1 hx with h1 | hx2
        · exact g2 x ((mem_insertSorted le a x (sortBy le (b :: l2))).2 (Or.inl h1))
        · exact g2 x ((mem_insertSorted le a x (sortBy le (b :: l2))).2
            (Or.inr ((mem_sortBy le x (b :: l2)).2 hx2)))

/-! ### Association-list lookup lemmas -/

theorem lookup_filter_key (l : List (String × α)) (q : String → Bool) (k : String) :
    (l.filter (fun p => q p.1)).lookup k = if q k then l.lookup k else none := by
  induction l with
  | nil => simp
  | cons p l ih =>
    cases p with
    | mk k2 v2 =>
      by_cases hk : k = k2
      · subst hk
        by_cases hq : q k = true
        · simp [List.filter_cons, hq, List.lookup_cons]
        · have hq2 : q k = false := by simpa using hq
          simp [List.filter_cons, hq2, ih]
      · have hbeq : (k == k2) = false := by simpa using hk
        by_cases hq : q k2 = true
        · simp only [List.filter_cons, hq, if_true, List.lookup_cons, hbeq]
          exact ih
        · have hq2 : q k2 = false := by simpa using hq
          simp only [List.filter_cons, hq2, Bool.false_eq_true, if_false, ih,
            List.lookup_cons, hbeq]

theorem lookup_isSome_iff_mem_keys (l : List (String × α)) (k : String) :
    (l.lookup k).isSome = true ↔ k ∈ l.map Prod.fst := by
  induction l with
  | nil => simp
  | cons p l ih =>
    cases p with
    | mk k2 v =>
      by_cases hk : k = k2
      · subst hk
        simp [List.lookup_cons]
      · have hbeq : (k == k2) = false := by simpa using hk
        simp [List.lookup_cons, hbeq, ih, hk]

theorem lookup_eq_none_of_not_mem_keys (l : List (String × α)) (k : String)
    (h : k ∉ l.map Prod.fst) : l.lookup k = none := by
  rcases e : l.lookup k with _ | v
  · rfl
  · exact absurd ((lookup_isSome_iff_mem_keys l k).1 (by simp [e])) h

theorem lookup_filter_val (l : List (String × α)) (q : String × α → Bool)
    (hnd : (l.map Prod.fst).Nodup) (k : String) :
    (l.filter q).lookup k =
      match l.lookup k with
      | some v => if q (k, v) then some v else none
      | none => none := by
  induction l with
  | nil => simp
  | cons p l ih =>
    simp only [List.map_cons, List.nodup_cons] at hnd
    obtain ⟨hp, hnd2⟩ := hnd
    cases p with
    | mk k2 v2 =>
      by_cases hk : k = k2
      · subst hk
        have hnone : l.lookup k = none := lookup_eq_none_of_not_mem_keys l k hp
        by_cases hq : q (k, v2) = true
        · simp [List.filter_cons, hq, List.lookup_cons]
        · have hq2 : q (k, v2) = false := by simpa using hq
          have hnone2 : (l.filter q).lookup k = none := by
            refine lookup_eq_none_of_not_mem_keys _ _ (fun hmem => hp ?_)
            rcases List.mem_map.1 hmem with ⟨p2, hp2, hpe⟩
            exact List.mem_map.2 ⟨p2, List.mem_of_mem_filter hp2, hpe⟩
          simp [List.filter_cons, hq2, hnone2, List.lookup_cons]
      · have hbeq : (k == k2) = false := by simpa using hk
        by_cases hq : q (k2, v2) = true
        · simp only [List.filter_cons, hq, if_true, List.lookup_cons, hbeq]
          exact ih hnd2
        · have hq2 : q (k2, v2) = false := by simpa using hq
          simp only [List.filter_cons, hq2, Bool.false_eq_true, if_false,
            List.lookup_cons, hbeq]
          exact ih hnd2

theorem lookup_append (l1 l2 : List (String × α)) (k : String) :
    (l1 ++ l2).lookup k =
      match l1.lookup k with
      | some v => some v
      | none => l2.lookup k := by
  induction l1 with
  | nil => simp
  | cons p l ih =>
    cases p with
    | mk k2 v2 =>
      by_cases hk : k = k2
      · subst hk
        simp [List.lookup_cons]
      · have hbeq : (k == k2) = false := by simpa using hk
        simp [List.lookup_cons, hbeq, ih]

theorem lookup_mem_of_nodup (l : List (String × α)) (k : String) (v : α)
    (hnd : (l.map Prod.fst).Nodup) (hmem : (k, v) ∈ l) : l.lookup k = some v := by
  induction l with
  | nil => simp at hmem
  | cons p l ih =>
    simp only [List.map_cons, List.nodup_cons] at hnd
    obtain ⟨hp, hnd2⟩ := hnd
    rcases List.mem_cons.1 hmem with rfl | hmem2
    · simp [List.lookup_cons]
    · cases p with
      | mk k2 v2 =>
        have hk : k ≠ k2 := by
          intro h
          subst h
          exact hp (List.mem_map.2 ⟨(k, v), hmem2, rfl⟩)
        have hbeq : (k == k2) = false := by simpa using hk
        simp only [List.lookup_cons, hbeq]
        exact ih hnd2 hmem2

theorem lookup_mapReplace_self (r : List (String × α)) (k : String) (v : α)
    (hs : (r.lookup k).isSome = true) :
    (r.map (fun p => if p.1 = k then (k, v) else p)).lookup k = some v := by
  induction r with
  | nil => simp at hs
  | cons p r ih =>
    cases p with
    | mk k2 v2 =>
      by_cases hk : k2 = k
      · subst hk
        simp [List.lookup_cons]
      · have hbeq : (k == k2) = false := by simpa using Ne.symm hk
        simp only [List.lookup_cons, hbeq] at hs
        simp only [List.map_cons, if_neg hk, List.lookup_cons, hbeq]
        exact ih hs

theorem lookup_mapReplace_other (r : List (String × α)) (k k2 : String) (v : α)
    (hk : k2 ≠ k) :
    (r.map (fun p => if p.1 = k then (k, v) else p)).lookup k2 = r.lookup k2 := by
  induction r with
  | nil => simp
  | cons p r ih =>
    cases p with
    | mk k3 v3 =>
      by_cases hk3 : k3 = k
      · subst hk3
        have hb1 : (k2 == k3) = false := by simpa using hk
        simp only [List.map_cons, if_true, List.lookup_cons, hb1]
        exact ih
      · by_cases hk32 : k2 = k3
        · subst hk32
          simp [List.map_cons, if_neg hk3, List.lookup_cons]
        · have hb1 : (k2 == k3) = false := by simpa using hk32
          simp only [List.map_cons, if_neg hk3, List.lookup_cons, hb1]
          exact ih

theorem lookup_recordSet_self (r : List (String × α)) (k : String) (v : α) :
    (recordSet r k v).lookup k = some v := by
  unfold recordSet
  by_cases hs : (r.lookup k).isSome = true
  · simp only [hs, if_true]
    exact lookup_mapReplace_self r k v hs
  · simp only [hs, Bool.false_eq_true, if_false]
    rw [lookup_append]
    rcases e : r.lookup k with _ | v2
    · simp [List.lookup_cons]
    · rw [e] at hs
      simp at hs

theorem lookup_recordSet_other (r : List (String × α)) (k k2 : String) (v : α)
    (hk : k2 ≠ k) : (recordSet r k v).lookup k2 = r.lookup k2 := by
  unfold recordSet
  by_cases hs : (r.lookup k).isSome = true
  · simp only [hs, if_true]
    exact lookup_mapReplace_other r k k2 v hk
  · simp only [hs, Bool.false_eq_true, if_false]
    rw [lookup_append]
    have hbeq : (k2 == k) = false := by simpa using hk
    rcases e : r.lookup k2 with _ | v2 <;> simp [e, List.lookup_cons, hbeq]

/-! ## Rule types (`types.ts`) -/

/-- A denylist rule (`types.ts`, `DenylistRule`): a tagged union of a
version/range exclusion and a per-package date cutoff.  The payload of the
version kind is the version-or-range expression string (named `range` in
the revision the metadata filter consumes); the cutoff of the date kind is
the parsed `Date`, embedded as epoch milliseconds. -/
inductive DenylistRule where
  | version (pkg : String) (range : String)
  | date (pkg : String) (cutoffDate : Int)
deriving DecidableEq, Repr

/-- The package identity of a denylist rule. -/
def DenylistRule.pkg : DenylistRule → String
  | .version p _ => p
  | .date p _ => p

/-- An allowlist rule (`types.ts`, `AllowlistRule`): package identity and
a version-or-range expression. -/
structure AllowlistRule where
  package : String
  range : String
deriving DecidableEq, Repr

/-! ## Rule parsing (`parse-utils.ts`, denylist line parser) -/

/-- `looksLikeDate` (`parse-utils.ts`): the value matches the regular
expression `/^\d{4}-\d{2}-\d{2}/`. -/
def looksLikeDate (value : String) : Bool :=
  match value.toList with
  | y1 :: y2 :: y3 :: y4 :: '-' :: m1 :: m2 :: '-' :: d1 :: d2 :: _ =>
    allDigits [y1, y2, y3, y4, m1, m2, d1, d2]
  | _ => false

/-- Result of `parsePackageValue`. -/
structure PackageValuePair where
  package : String
  value : String
deriving DecidableEq, Repr

/-- The index of the last occurrence of a character, as in JS
`String.prototype.lastIndexOf`. -/
def lastIndexOfChar (c : Char) (cs : List Char) : Option Nat :=
  ((cs.enum.filter (fun p => p.2 = c)).map Prod.fst).getLast?

/-- `parsePackageValue` (`parse-utils.ts`): trim; skip blank lines and
`#` comments; split at the last `@`, which must not be the first
character; package and value must both be nonempty. -/
def parsePackageValue (line : String) : Option PackageValuePair :=
  let trimmed := jsTrimList line.toList
  if trimmed.isEmpty || trimmed.head? = some '#' then none
  else
    match lastIndexOfChar '@' trimmed with
    | none => none
    | some lastAtIndex =>
      if lastAtIndex = 0 then none
      else
        let packageName := trimmed.take lastAtIndex
        let value := trimmed.drop (lastAtIndex + 1)
        if packageName.isEmpty || value.isEmpty then none
        else some ⟨String.mk packageName, String.mk value⟩

/-- `parseDenylistLine` (denylist parser): classify the value as a date
cutoff (rejecting invalid calendar dates) or a version/range expression
(accepted as-is). -/
def parseDenylistLine (line : String) : Option DenylistRule :=
  match parsePackageValue line with
  | none => none
  | some parsed =>
    if looksLikeDate parsed.value then
      match jsDateParse parsed.value with
      | none => none
      | some t => some (.date parsed.package t)
    else
      some (.version parsed.package parsed.value)

/-- Result of `parseFileContent`: parsed rules plus `{lineNumber,
rawContent}` error records (1-based line numbers). -/
structure ParseResultBase (T : Type) where
  rules : List T
  errors : List (Nat × String)
deriving DecidableEq, Repr

/-- Should a line be skipped silently (blank or `#` comment)? -/
def skipLine (line : String) : Bool :=
  let trimmed := jsTrimList line.toList
  trimmed.isEmpty || trimmed.head? = some '#'

/-- The line loop of `parseFileContent`, carrying the 0-based index. -/
def parseLinesFrom (parseLine : String → Option T) : Nat → List String → List T × List (Nat × String)
  | _, [] => ([], [])
  | i, line :: rest =>
    let tail := parseLinesFrom parseLine (i + 1) rest
    if skipLine line then tail
    else
      match parseLine line with
      | some rule => (rule :: tail.1, tail.2)
      | none => (tail.1, (i + 1, line) :: tail.2)

/-- `parseFileContent` (`parse-utils.ts`): split into lines, skip blank
and comment lines, collect parsed rules and per-line errors in file
order. -/
def parseFileContent (content : String) (parseLine : String → Option T) : ParseResultBase T :=
  let r := parseLinesFrom parseLine 0 (splitLines content)
  ⟨r.1, r.2⟩

/-- `parseDenylistContent` (denylist parser). -/
def parseDenylistContent (content : String) : ParseResultBase DenylistRule :=
  parseFileContent content parseDenylistLine

/-! ## The metadata filter (`metadata-filter.ts`) -/

/-- `getEarliestCutoff`: the earlier of two optional cutoffs. -/
def getEarliestCutoff (globalCutoff packageCutoff : Option Int) : Option Int :=
  match globalCutoff, packageCutoff with
  | none, none => none
  | none, some p => some p
  | some g, none => some g
  | some g, some p => if g < p then some g else some p

/-- The keep-decision of `filterVersionsByDate` for one version: keep on
missing or falsy timestamp, keep on unparsable timestamp, otherwise keep
iff published on or before the cutoff. -/
def keepByDate (time : Option (List (String × String))) (cutoff : Int) (version : String) : Bool :=
  match time.bind (List.lookup version) with
  | none => true
  | some s =>
    if s = "" then true
    else
      match jsDateParse s with
      | none => true
      | some t => t ≤ cutoff

/-- `filterVersionsByDate`: keep the versions `keepByDate` accepts. -/
def filterVersionsByDate (versions : List (String × VersionManifest))
    (time : Option (List (String × String))) (cutoff : Int) :
    List (String × VersionManifest) :=
  versions.filter (fun p => keepByDate time cutoff p.1)

/-- `removeBlockedVersions`: drop every version satisfying any blocked
range (`semver.satisfies`). -/
def removeBlockedVersions (versions : List (String × VersionManifest))
    (blockedRanges : List String) : List (String × VersionManifest) :=
  if blockedRanges.isEmpty then versions
  else versions.filter (fun p => !blockedRanges.any (fun range => semverSatisfies p.1 range))

/-- `addAllowedVersions`: walk the original versions and add back any
absent version matching an allowlist rule, with its original manifest. -/
def addAllowedVersions (filteredVersions originalVersions : List (String × VersionManifest))
    (allowlistRules : List AllowlistRule) : List (String × VersionManifest) :=
  if allowlistRules.isEmpty then filteredVersions
  else
    originalVersions.foldl (fun result p =>
      if (result.lookup p.1).isSome then result
      else if allowlistRules.any (fun rule => semverSatisfies p.1 rule.range) then
        result ++ [p]
      else result) filteredVersions

/-- The Boolean ascending order of JS `versions.sort(semver.compare)`. -/
def semverLeB : String → String → Bool :=
  cmpLeB semverCompareStr

/-- JS string comparison (`a < b` on strings): code-unit lexicographic,
with a strict prefix ordering first. -/
def jsStrCompare : String → String → Ordering :=
  cmpOn (listCompareWith (cmpOn compare Char.toNat)) String.data

instance : Batteries.TransCmp jsStrCompare :=
  inferInstanceAs (Batteries.TransCmp (cmpOn _ _))

/-- The Boolean ascending order of JS default `versions.sort()`
(string comparison). -/
def lexLeB : String → String → Bool :=
  cmpLeB jsStrCompare

/-- `findLatestVersion`: sort the valid semver versions and take the
last; with no valid version, fall back to the lexicographically last raw
string. -/
def findLatestVersion (versions : List String) : Option String :=
  if versions.isEmpty then none
  else
    let validVersions := versions.filter semverValid
    if validVersions.isEmpty then (sortBy lexLeB versions).getLast?
    else (sortBy semverLeB validVersions).getLast?

/-- Is a version a stable (no-prerelease) semantic version? -/
def isStableSemver (v : String) : Bool :=
  match semverParse v with
  | some p => p.prerelease.isEmpty
  | none => false

/-- `findLatestStableVersion`: prefer the latest stable version, falling
back to the latest of all versions. -/
def findLatestStableVersion (versions : List String) : Option String :=
  if versions.isEmpty then none
  else
    let stable := versions.filter isStableSemver
    if !stable.isEmpty then findLatestVersion stable
    else findLatestVersion versions

/-- `fixDistTags`: keep tags that still point at an available version;
if no (truthy) `latest` tag remains, synthesize one with
`findLatestStableVersion` — and install it only when it is itself truthy
(the source guards the assignment with `if (latest)`, so an empty-string
result, which is falsy in JS, is not installed). -/
def fixDistTags (distTags : List (String × String))
    (availableVersions : List (String × VersionManifest)) : List (String × String) :=
  let versionList := availableVersions.map Prod.fst
  if versionList.isEmpty then []
  else
    let fixed := distTags.filter (fun p => (availableVersions.lookup p.2).isSome)
    if jsFalsyStr (fixed.lookup "latest") then
      match findLatestStableVersion versionList with
      | some latest => if latest = "" then fixed else recordSet fixed "latest" latest
      | none => fixed
    else fixed

/-- Options of `filterPackageMetadata` (`FilterOptions`). -/
structure FilterOptions where
  globalCutoff : Option Int
  denylistRules : List DenylistRule
  allowlistRules : List AllowlistRule
deriving Repr

/-- The per-package date cutoff loop of `filterPackageMetadata`: the
earliest cutoff among the package's date-kind denylist rules. -/
def packageDateCutoffOf (packageDenylistRules : List DenylistRule) : Option Int :=
  packageDenylistRules.foldl (fun acc r =>
    match r with
    | .date _ d =>
      match acc with
      | none => some d
      | some cur => if d < cur then some d else some cur
    | .version _ _ => acc) none

/-- The `created`/`modified` preservation and per-version copying of the
`time` record in `filterPackageMetadata`. -/
def buildFilteredTime (time : Option (List (String × String)))
    (filteredVersions : List (String × VersionManifest)) : List (String × String) :=
  match time with
  | none => []
  | some t =>
    let t1 : List (String × String) :=
      match t.lookup "created" with
      | some c => if c = "" then [] else [("created", c)]
      | none => []
    let t2 : List (String × String) :=
      match t.lookup "modified" with
      | some c => if c = "" then t1 else recordSet t1 "modified" c
      | none => t1
    (filteredVersions.map Prod.fst).foldl (fun acc v =>
      match t.lookup v with
      | some s => if s = "" then acc else recordSet acc v s
      | none => acc) t2

/-- Is a denylist rule of the version kind? -/
def DenylistRule.isVersionKind : DenylistRule → Bool
  | .version _ _ => true
  | .date _ _ => false

/-- The range payload of a version-kind rule (unused default for the
date kind, which the preceding filter has removed). -/
def DenylistRule.rangeOf : DenylistRule → String
  | .version _ range => range
  | .date _ _ => ""

/-- The denylist rules selected for this package
(`denylistRules.filter(r => r.package === metadata.name)`). -/
def packageDenylistRulesOf (options : FilterOptions) (name : String) : List DenylistRule :=
  options.denylistRules.filter (fun r => r.pkg = name)

/-- The blocked version/range expressions collected from the selected
version-kind denylist rules. -/
def blockedRangesOf (options : FilterOptions) (name : String) : List String :=
  ((packageDenylistRulesOf options name).filter DenylistRule.isVersionKind).map
    DenylistRule.rangeOf

/-- The allowlist rules selected for this package. -/
def packageAllowlistRulesOf (options : FilterOptions) (name : String) : List AllowlistRule :=
  options.allowlistRules.filter (fun r => r.package = name)

/-- The effective cutoff: earliest of the global cutoff and the
per-package date cutoff. -/
def effectiveCutoffOf (options : FilterOptions) (name : String) : Option Int :=
  getEarliestCutoff options.globalCutoff
    (packageDateCutoffOf (packageDenylistRulesOf options name))

/-- The version set after the date-filtering step of
`filterPackageMetadata` (skipped when there is no effective cutoff). -/
def versionsAfterDate (metadata : PackageMetadata) (options : FilterOptions) :
    List (String × VersionManifest) :=
  match effectiveCutoffOf options metadata.name with
  | some cutoff => filterVersionsByDate metadata.versions metadata.time cutoff
  | none => metadata.versions

/-- The version set after the allowlist-restoration step (skipped when
no allowlist rule is selected). -/
def versionsAfterAllow (metadata : PackageMetadata) (options : FilterOptions) :
    List (String × VersionManifest) :=
  if !(packageAllowlistRulesOf options metadata.name).isEmpty then
    addAllowedVersions (versionsAfterDate metadata options) metadata.versions
      (packageAllowlistRulesOf options metadata.name)
  else versionsAfterDate metadata options

/-- The version set after the denylist-removal step (skipped when no
version-kind denylist rule is selected); this is the final version set. -/
def versionsAfterBlock (metadata : PackageMetadata) (options : FilterOptions) :
    List (String × VersionManifest) :=
  if !(blockedRangesOf options metadata.name).isEmpty then
    removeBlockedVersions (versionsAfterAllow metadata options)
      (blockedRangesOf options metadata.name)
  else versionsAfterAllow metadata options

/-- `filterPackageMetadata`: the full pure filter — rule selection,
effective cutoff, date filtering, allowlist restoration, denylist
removal, dist-tag repair and time-map reconstruction. -/
def filterPackageMetadata (metadata : PackageMetadata) (options : FilterOptions) :
    PackageMetadata :=
  { metadata with
    versions := versionsAfterBlock metadata options
    distTags := fixDistTags metadata.distTags (versionsAfterBlock metadata options)
    time := some (buildFilteredTime metadata.time (versionsAfterBlock metadata options)) }

/-! ## The filter entry point (`index.ts`, `filter_metadata`) -/

/-- The entry-point outcome: the filtered metadata, or the thrown
"all versions filtered" error (which the host maps to not-found). -/
def filterMetadataEntry (globalCutoff : Option Int) (denylistRules : List DenylistRule)
    (allowlistRules : List AllowlistRule) (metadata : PackageMetadata) :
    Except String PackageMetadata :=
  if globalCutoff = none ∧ denylistRules = [] ∧ allowlistRules = [] then
    .ok metadata
  else
    let filtered := filterPackageMetadata metadata
      ⟨globalCutoff, denylistRules, allowlistRules⟩
    if filtered.versions.length = 0 then
      .error ("All versions of " ++ metadata.name ++ " are filtered by vintage plugin")
    else
      .ok filtered

/-! ## The file watcher (`file-watcher.ts`)

The watcher is embedded as a state machine over the events its
closure-based implementation reacts to: the 5000ms existence-retry
timeout firing, a stat-poll tick of `fs.watchFile`, and a `close()`
call.  `callbackCount` counts invocations of the `onChange` callback. -/

/-- Watcher state: the `isWatching` flag, whether an existence-retry
timeout is pending, whether `fs.watchFile` is registered, and how often
the callback has fired. -/
structure WatcherState where
  isWatching : Bool
  pendingRetry : Bool
  statWatcher : Bool
  callbackCount : Nat
deriving DecidableEq, Repr

/-- Events the watcher reacts to.  `retryFires` carries whether the file
exists when the retry timeout runs; `statTick` carries whether the
observed mtime differs from the previous observation. -/
inductive WatcherEvent where
  | retryFires (fileExists : Bool)
  | statTick (mtimeChanged : Bool)
  | closeCall
deriving DecidableEq, Repr

/-- `startWatching`: if the file does not exist, schedule a retry;
otherwise register `fs.watchFile` and set `isWatching`. -/
def startWatching (fileExists : Bool) (s : WatcherState) : WatcherState :=
  if !fileExists then { s with pendingRetry := true }
  else { s with statWatcher := true, isWatching := true }

/-- `watchFile` construction: run `startWatching` once against the
initial existence of the file. -/
def watchFileInit (fileExists : Bool) : WatcherState :=
  startWatching fileExists ⟨false, false, false, 0⟩

/-- One step of the watcher: the retry timeout re-runs `startWatching`;
a stat tick with a changed mtime invokes the callback while the stat
watcher is registered; `close()` unregisters the stat watcher only when
`isWatching` is set. -/
def watcherStep (s : WatcherState) : WatcherEvent → WatcherState
  | .retryFires fileExists =>
    if s.pendingRetry then startWatching fileExists { s with pendingRetry := false }
    else s
  | .statTick mtimeChanged =>
    if s.statWatcher && mtimeChanged then { s with callbackCount := s.callbackCount + 1 }
    else s
  | .closeCall =>
    if s.isWatching then { s with statWatcher := false, isWatching := false }
    else s

/-- Run the watcher over a sequence of events. -/
def watcherRun (s : WatcherState) (events : List WatcherEvent) : WatcherState :=
  events.foldl watcherStep s

/-! ## Characterization lemmas for the filter stages -/

theorem lookup_filterVersionsByDate (versions : List (String × VersionManifest))
    (time : Option (List (String × String))) (cutoff : Int) (v : String) :
    (filterVersionsByDate versions time cutoff).lookup v =
      if keepByDate time cutoff v then versions.lookup v else none :=
  lookup_filter_key versions (keepByDate time cutoff) v

theorem lookup_removeBlockedVersions (versions : List (String × VersionManifest))
    (blockedRanges : List String) (v : String) :
    (removeBlockedVersions versions blockedRanges).lookup v =
      if blockedRanges.any (fun range => semverSatisfies v range) then none
      else versions.lookup v := by
  unfold removeBlockedVersions
  by_cases he : blockedRanges.isEmpty = true
  · have : blockedRanges = [] := by simpa using he
    subst this
    simp
  · simp only [he, Bool.false_eq_true, if_false]
    rw [lookup_filter_key versions (fun k => !blockedRanges.any (fun range => semverSatisfies k range)) v]
    by_cases hb : blockedRanges.any (fun range => semverSatisfies v range) = true
    · simp [hb]
    · simp only [Bool.not_eq_true] at hb
      simp [hb]

theorem addAllowedVersions_foldl_lookup (fv orig : List (String × VersionManifest))
    (rules : List AllowlistRule) (l : List (String × VersionManifest))
    (hl : ∀ p ∈ l, orig.lookup p.1 = some p.2) :
    ∀ (acc : List (String × VersionManifest)),
      (∀ v m, acc.lookup v = some m → fv.lookup v = some m ∨ orig.lookup v = some m) →
      ∀ v m,
        ((l.foldl (fun result p =>
          if (result.lookup p.1).isSome then result
          else if rules.any (fun rule => semverSatisfies p.1 rule.range) then result ++ [p]
          else result) acc).lookup v = some m) →
        fv.lookup v = some m ∨ orig.lookup v = some m := by
  induction l with
  | nil =>
    intro acc hacc v m h
    exact hacc v m h
  | cons p l ih =>
    intro acc hacc v m h
    simp only [List.foldl_cons] at h
    have hp := hl p (List.mem_cons_self p l)
    have hl2 : ∀ p2 ∈ l, orig.lookup p2.1 = some p2.2 := fun p2 hp2 =>
      hl p2 (List.mem_cons_of_mem p hp2)
    refine ih hl2 _ ?_ v m h
    intro v2 m2 h2
    by_cases hs : (acc.lookup p.1).isSome = true
    · rw [if_pos hs] at h2
      exact hacc v2 m2 h2
    · rw [if_neg hs] at h2
      by_cases hr : rules.any (fun rule => semverSatisfies p.1 rule.range) = true
      · rw [if_pos hr] at h2
        rw [lookup_append] at h2
        rcases e : acc.lookup v2 with _ | m3
        · rw [e] at h2
          obtain ⟨pk, pm⟩ := p
          simp only [List.lookup_cons] at h2
          by_cases hv : v2 = pk
          · have hbeq : (v2 == pk) = true := by simpa using hv
            rw [hbeq] at h2
            simp only [Option.some.injEq] at h2
            subst h2
            right
            rw [hv]
            simpa using hp
          · have hbeq : (v2 == pk) = false := by simpa using hv
            rw [hbeq] at h2
            simp at h2
        · rw [e] at h2
          simp only [Option.some.injEq] at h2
          subst h2
          exact hacc v2 m3 e
      · rw [if_neg hr] at h2
        exact hacc v2 m2 h2

theorem lookup_addAllowedVersions_sub (fv orig : List (String × VersionManifest))
    (rules : List AllowlistRule) (hnd : (orig.map Prod.fst).Nodup) (v : String)
    (m : VersionManifest) (h : (addAllowedVersions fv orig rules).lookup v = some m) :
    fv.lookup v = some m ∨ orig.lookup v = some m := by
  unfold addAllowedVersions at h
  by_cases he : rules.isEmpty = true
  · rw [if_pos he] at h
    exact Or.inl h
  · rw [if_neg he] at h
    refine addAllowedVersions_foldl_lookup fv orig rules orig ?_ fv ?_ v m h
    · intro p hp
      exact lookup_mem_of_nodup orig p.1 p.2 hnd (by simpa using hp)
    · intro v2 m2 h2
      exact Or.inl h2

theorem lookup_filterVersionsByDate_sub (versions : List (String × VersionManifest))
    (time : Option (List (String × String))) (cutoff : Int) (v : String)
    (m : VersionManifest)
    (h : (filterVersionsByDate versions time cutoff).lookup v = some m) :
    versions.lookup v = some m := by
  rw [lookup_filterVersionsByDate] at h
  by_cases hk : keepByDate time cutoff v = true
  · rwa [if_pos hk] at h
  · rw [if_neg hk] at h
    exact absurd h (by simp)

theorem lookup_versionsAfterDate_sub (md : PackageMetadata) (opts : FilterOptions)
    (v : String) (m : VersionManifest)
    (h : (versionsAfterDate md opts).lookup v = some m) :
    md.versions.lookup v = some m := by
  unfold versionsAfterDate at h
  split at h
  · exact lookup_filterVersionsByDate_sub md.versions md.time _ v m h
  · exact h

theorem lookup_versionsAfterAllow_sub (md : PackageMetadata) (opts : FilterOptions)
    (hnd : (md.versions.map Prod.fst).Nodup) (v : String) (m : VersionManifest)
    (h : (versionsAfterAllow md opts).lookup v = some m) :
    md.versions.lookup v = some m := by
  unfold versionsAfterAllow at h
  split at h
  · rcases lookup_addAllowedVersions_sub _ _ _ hnd v m h with h2 | h2
    · exact lookup_versionsAfterDate_sub md opts v m h2
    · exact h2
  · exact lookup_versionsAfterDate_sub md opts v m h

theorem lookup_versionsAfterBlock_sub (md : PackageMetadata) (opts : FilterOptions)
    (hnd : (md.versions.map Prod.fst).Nodup) (v : String) (m : VersionManifest)
    (h : (versionsAfterBlock md opts).lookup v = some m) :
    md.versions.lookup v = some m := by
  unfold versionsAfterBlock at h
  split at h
  · rw [lookup_removeBlockedVersions] at h
    split at h
    · exact absurd h (by simp)
    · exact lookup_versionsAfterAllow_sub md opts hnd v m h
  · exact lookup_versionsAfterAllow_sub md opts hnd v m h

/-! ## The effective cutoff, declaratively (the claim's formulation) -/

/-- The cutoffs of the date-kind denylist rules whose package identity
equals the given name (stated from the specification text, for
comparison with the code's fold). -/
def dateCutoffsFor (rules : List DenylistRule) (name : String) : List Int :=
  rules.filterMap (fun r =>
    match r with
    | .date p d => if p = name then some d else none
    | .version _ _ => none)

/-- The minimum of a list of instants (none when empty). -/
def minOfList (ds : List Int) : Option Int :=
  match ds with
  | [] => none
  | a :: rest => some (rest.foldl min a)

/-- The specification's effective cutoff: earliest of the global cutoff
and the minimum of the selected date-kind cutoffs, each side dropping
out when absent. -/
def specEffectiveCutoff (options : FilterOptions) (name : String) : Option Int :=
  match options.globalCutoff, minOfList (dateCutoffsFor options.denylistRules name) with
  | none, none => none
  | none, some p => some p
  | some g, none => some g
  | some g, some p => some (min g p)

/-- The running-minimum step of the per-package date-cutoff loop. -/
def minCutoffStep (acc : Option Int) (d : Int) : Option Int :=
  match acc with
  | none => some d
  | some cur => if d < cur then some d else some cur

theorem ruleFold_eq_cutoffFold (rs : List DenylistRule) :
    ∀ acc : Option Int,
      (rs.foldl (fun acc r =>
        match r with
        | .date _ d => minCutoffStep acc d
        | .version _ _ => acc) acc) =
      (rs.filterMap (fun r =>
        match r with
        | .date _ d => some d
        | .version _ _ => none)).foldl minCutoffStep acc := by
  induction rs with
  | nil => intro acc; rfl
  | cons r rs ih =>
    intro acc
    rcases r with ⟨p, range⟩ | ⟨p, d⟩
    · simp only [List.foldl_cons, List.filterMap_cons]
      exact ih acc
    · simp only [List.foldl_cons, List.filterMap_cons]
      exact ih (minCutoffStep acc d)

theorem minCutoffStep_foldl (ds : List Int) :
    ∀ acc : Option Int,
      ds.foldl minCutoffStep acc =
        match acc with
        | none => minOfList ds
        | some a0 => some (ds.foldl min a0) := by
  induction ds with
  | nil =>
    intro acc
    rcases acc with _ | a0 <;> rfl
  | cons d ds ih =>
    intro acc
    rcases acc with _ | a0
    · simp only [List.foldl_cons]
      show ds.foldl minCutoffStep (some d) = minOfList (d :: ds)
      rw [ih (some d)]
      rfl
    · simp only [List.foldl_cons]
      show ds.foldl minCutoffStep (minCutoffStep (some a0) d) = some ((d :: ds).foldl min a0)
      have hr : (d :: ds).foldl min a0 = ds.foldl min (min a0 d) := by
        simp [List.foldl_cons]
      rw [hr]
      by_cases hd : d < a0
      · have e1 : minCutoffStep (some a0) d = some d := by
          simp [minCutoffStep, hd]
        have e2 : min a0 d = d := by omega
        rw [e1, ih (some d), e2]
      · have e1 : minCutoffStep (some a0) d = some a0 := by
          simp [minCutoffStep, hd]
        have e2 : min a0 d = a0 := by omega
        rw [e1, ih (some a0), e2]

theorem cutoffsOf_filter_eq (rules : List DenylistRule) (name : String) :
    ((rules.filter (fun r => r.pkg = name)).filterMap (fun r =>
      match r with
      | .date _ d => some d
      | .version _ _ => none)) = dateCutoffsFor rules name := by
  unfold dateCutoffsFor
  induction rules with
  | nil => rfl
  | cons r rules ih =>
    rcases r with ⟨p, range⟩ | ⟨p, d⟩
    · by_cases hp : p = name
      · have hdec : (decide (DenylistRule.pkg (.version p range) = name)) = true := by
          simp [DenylistRule.pkg, hp]
        simp only [List.filter_cons, hdec, if_true, List.filterMap_cons]
        exact ih
      · have hdec : (decide (DenylistRule.pkg (.version p range) = name)) = false := by
          simp [DenylistRule.pkg, hp]
        simp only [List.filter_cons, hdec, Bool.false_eq_true, if_false,
          List.filterMap_cons]
        exact ih
    · by_cases hp : p = name
      · have hdec : (decide (DenylistRule.pkg (.date p d) = name)) = true := by
          simp [DenylistRule.pkg, hp]
        have hif : (if p = name then some d else none) = some d := by simp [hp]
        simp only [List.filter_cons, hdec, if_true, List.filterMap_cons, hif]
        rw [ih]
      · have hdec : (decide (DenylistRule.pkg (.date p d) = name)) = false := by
          simp [DenylistRule.pkg, hp]
        have hif : (if p = name then some d else none) = (none : Option Int) := by
          simp [hp]
        simp only [List.filter_cons, hdec, Bool.false_eq_true, if_false,
          List.filterMap_cons, hif]
        exact ih

theorem packageDateCutoffOf_eq_min (rules : List DenylistRule) (name : String) :
    packageDateCutoffOf (rules.filter (fun r => r.pkg = name)) =
      minOfList (dateCutoffsFor rules name) := by
  unfold packageDateCutoffOf
  have e : (fun (acc : Option Int) (r : DenylistRule) =>
      match r with
      | .date _ d =>
        match acc with
        | none => some d
        | some cur => if d < cur then some d else some cur
      | .version _ _ => acc) =
      (fun acc r =>
        match r with
        | .date _ d => minCutoffStep acc d
        | .version _ _ => acc) := by
    funext acc r
    rcases r with ⟨p, range⟩ | ⟨p, d⟩ <;> rfl
  rw [e, ruleFold_eq_cutoffFold, cutoffsOf_filter_eq, minCutoffStep_foldl]

theorem effectiveCutoffOf_eq_spec (options : FilterOptions) (name : String) :
    effectiveCutoffOf options name = specEffectiveCutoff options name := by
  unfold effectiveCutoffOf specEffectiveCutoff getEarliestCutoff packageDenylistRulesOf
  rw [packageDateCutoffOf_eq_min]
  rcases options.globalCutoff with _ | g
  · rcases minOfList (dateCutoffsFor options.denylistRules name) with _ | p <;> rfl
  · rcases minOfList (dateCutoffsFor options.denylistRules name) with _ | p
    · rfl
    · by_cases h : g < p
      · have e : min g p = g := by omega
        simp only [if_pos h, e]
      · have e : min g p = p := by omega
        simp only [if_neg h, e]

/-! ## Characterization of the file-content parser -/

theorem parseLinesFrom_spec (pl : String → Option T) (lines : List String) :
    ∀ i, parseLinesFrom pl i lines =
      ((lines.filter (fun l => !skipLine l)).filterMap pl,
       ((List.enumFrom i lines).filter (fun p => !skipLine p.2 && (pl p.2).isNone)).map
         (fun p => (p.1 + 1, p.2))) := by
  induction lines with
  | nil => intro i; rfl
  | cons line rest ih =>
    intro i
    show (let tail := parseLinesFrom pl (i + 1) rest
      if skipLine line then tail
      else
        match pl line with
        | some rule => (rule :: tail.1, tail.2)
        | none => (tail.1, (i + 1, line) :: tail.2)) = _
    rw [ih (i + 1)]
    by_cases hs : skipLine line = true
    · simp [hs, List.enumFrom, List.filter_cons]
    · have hs2 : skipLine line = false := by simpa using hs
      rcases e : pl line with _ | rule
      · simp [hs2, e, List.enumFrom, List.filter_cons, List.filterMap_cons]
      · simp [hs2, e, List.enumFrom, List.filter_cons, List.filterMap_cons]

theorem parseFileContent_spec (pl : String → Option T) (content : String) :
    (parseFileContent content pl).rules =
        ((splitLines content).filter (fun l => !skipLine l)).filterMap pl ∧
    (parseFileContent content pl).errors =
        (((splitLines content).enum.filter
          (fun p => !skipLine p.2 && (pl p.2).isNone)).map (fun p => (p.1 + 1, p.2))) := by
  unfold parseFileContent
  rw [parseLinesFrom_spec pl (splitLines content) 0]
  exact ⟨rfl, rfl⟩

/-! ## Characterization of `findLatestVersion` / `findLatestStableVersion` -/

theorem lexLeB_empty_right (x : String) (h : lexLeB x "" = true) : x = "" := by
  have hc : jsStrCompare x "" ≠ .gt := (cmpLeB_iff jsStrCompare x "").1 h
  rcases e : x.data with _ | ⟨c, cs⟩
  · exact String.ext (by rw [e])
  · exfalso
    apply hc
    show listCompareWith (cmpOn compare Char.toNat) x.data ("" : String).data = .gt
    rw [e]
    rfl

theorem lexLeB_total (a b : String) : lexLeB a b = true ∨ lexLeB b a = true :=
  cmpLeB_total a b

theorem lexLeB_trans {a b c : String} (h1 : lexLeB a b = true) (h2 : lexLeB b c = true) :
    lexLeB a c = true :=
  cmpLeB_trans h1 h2

theorem semverLeB_total (a b : String) : semverLeB a b = true ∨ semverLeB b a = true :=
  cmpLeB_total a b

theorem semverLeB_trans {a b c : String} (h1 : semverLeB a b = true)
    (h2 : semverLeB b c = true) : semverLeB a c = true :=
  cmpLeB_trans h1 h2

theorem findLatestVersion_spec (l : List String) (hl : l ≠ []) (w : String)
    (h : findLatestVersion l = some w) :
    (l.filter semverValid ≠ [] ∧ w ∈ l.filter semverValid ∧
      ∀ x ∈ l.filter semverValid, semverLeB x w = true) ∨
    (l.filter semverValid = [] ∧ w ∈ l ∧ ∀ x ∈ l, lexLeB x w = true) := by
  unfold findLatestVersion at h
  have he : l.isEmpty = false := by simpa using hl
  rw [he] at h
  simp only [Bool.false_eq_true, if_false] at h
  by_cases hv : (l.filter semverValid).isEmpty = true
  · rw [if_pos hv] at h
    obtain ⟨m, hm1, hm2, hm3⟩ := sortBy_max lexLeB lexLeB_total
      (fun h1 h2 => lexLeB_trans h1 h2) l hl
    rw [hm1] at h
    simp only [Option.some.injEq] at h
    subst h
    right
    exact ⟨by simpa using hv, hm2, hm3⟩
  · rw [if_neg hv] at h
    have hne : l.filter semverValid ≠ [] := by simpa using hv
    obtain ⟨m, hm1, hm2, hm3⟩ := sortBy_max semverLeB semverLeB_total
      (fun h1 h2 => semverLeB_trans h1 h2) (l.filter semverValid) hne
    rw [hm1] at h
    simp only [Option.some.injEq] at h
    subst h
    left
    exact ⟨hne, hm2, hm3⟩

theorem findLatestVersion_isSome (l : List String) (hl : l ≠ []) :
    (findLatestVersion l).isSome = true := by
  unfold findLatestVersion
  have he : l.isEmpty = false := by simpa using hl
  rw [he]
  simp only [Bool.false_eq_true, if_false]
  by_cases hv : (l.filter semverValid).isEmpty = true
  · rw [if_pos hv]
    obtain ⟨m, hm1, _, _⟩ := sortBy_max lexLeB lexLeB_total
      (fun h1 h2 => lexLeB_trans h1 h2) l hl
    simp [hm1]
  · rw [if_neg hv]
    have hne : l.filter semverValid ≠ [] := by simpa using hv
    obtain ⟨m, hm1, _, _⟩ := sortBy_max semverLeB semverLeB_total
      (fun h1 h2 => semverLeB_trans h1 h2) (l.filter semverValid) hne
    simp [hm1]

/-- The claim's characterization of the synthesized `latest`: the highest
stable surviving version under semantic-version ordering, else the
highest surviving semantic version including prereleases, else the
lexicographic maximum of the raw version strings. -/
def latestChoiceSpec (candidates : List String) (w : String) : Prop :=
  (candidates.filter isStableSemver ≠ [] ∧ w ∈ candidates.filter isStableSemver ∧
    ∀ x ∈ candidates.filter isStableSemver, semverLeB x w = true) ∨
  (candidates.filter isStableSemver = [] ∧ candidates.filter semverValid ≠ [] ∧
    w ∈ candidates.filter semverValid ∧
    ∀ x ∈ candidates.filter semverValid, semverLeB x w = true) ∨
  (candidates.filter isStableSemver = [] ∧ candidates.filter semverValid = [] ∧
    w ∈ candidates ∧ ∀ x ∈ candidates, lexLeB x w = true)

theorem latestChoiceSpec_mem (candidates : List String) (w : String)
    (h : latestChoiceSpec candidates w) : w ∈ candidates := by
  rcases h with ⟨_, h2, _⟩ | ⟨_, _, h2, _⟩ | ⟨_, _, h2, _⟩
  · exact List.mem_of_mem_filter h2
  · exact List.mem_of_mem_filter h2
  · exact h2

theorem latestChoiceSpec_ne_empty (candidates : List String) (w : String)
    (h : latestChoiceSpec candidates w) (hex : ∃ k ∈ candidates, k ≠ "") :
    w ≠ "" := by
  rcases h with ⟨_, h2, _⟩ | ⟨_, _, h2, _⟩ | ⟨_, _, _, h4⟩
  · intro he
    subst he
    exact absurd (List.of_mem_filter h2) (by decide)
  · intro he
    subst he
    exact absurd (List.of_mem_filter h2) (by decide)
  · intro he
    subst he
    obtain ⟨k, hk, hkne⟩ := hex
    exact hkne (lexLeB_empty_right k (h4 k hk))

theorem stable_filter_all_valid (l : List String) :
    (l.filter isStableSemver).filter semverValid = l.filter isStableSemver := by
  rw [List.filter_eq_self]
  intro a ha
  have hs : isStableSemver a = true := List.of_mem_filter ha
  unfold isStableSemver at hs
  unfold semverValid
  rcases e : semverParse a with _ | p
  · rw [e] at hs
    simp at hs
  · simp

theorem findLatestStableVersion_spec (l : List String) (hl : l ≠ []) (w : String)
    (h : findLatestStableVersion l = some w) : latestChoiceSpec l w := by
  unfold findLatestStableVersion at h
  have he : l.isEmpty = false := by simpa using hl
  rw [he] at h
  simp only [Bool.false_eq_true, if_false] at h
  by_cases hs : (l.filter isStableSemver).isEmpty = true
  · have hs2 : (!(l.filter isStableSemver).isEmpty) = false := by simp [hs]
    rw [hs2] at h
    simp only [Bool.false_eq_true, if_false] at h
    have hstable : l.filter isStableSemver = [] := by simpa using hs
    rcases findLatestVersion_spec l hl w h with ⟨h1, h2, h3⟩ | ⟨h1, h2, h3⟩
    · exact Or.inr (Or.inl ⟨hstable, h1, h2, h3⟩)
    · exact Or.inr (Or.inr ⟨hstable, h1, h2, h3⟩)
  · have hs2 : (!(l.filter isStableSemver).isEmpty) = true := by simpa using hs
    rw [hs2] at h
    simp only [if_true] at h
    have hne : l.filter isStableSemver ≠ [] := by simpa using hs
    rcases findLatestVersion_spec (l.filter isStableSemver) hne w h with
      ⟨_, h2, h3⟩ | ⟨h1, _, _⟩
    · rw [stable_filter_all_valid] at h2 h3
      exact Or.inl ⟨hne, h2, h3⟩
    · rw [stable_filter_all_valid] at h1
      exact absurd h1 hne

theorem findLatestStableVersion_isSome (l : List String) (hl : l ≠ []) :
    (findLatestStableVersion l).isSome = true := by
  unfold findLatestStableVersion
  have he : l.isEmpty = false := by simpa using hl
  rw [he]
  simp only [Bool.false_eq_true, if_false]
  by_cases hs : (l.filter isStableSemver).isEmpty = true
  · have hs2 : (!(l.filter isStableSemver).isEmpty) = false := by simp [hs]
    rw [hs2]
    simp only [Bool.false_eq_true, if_false]
    exact findLatestVersion_isSome l hl
  · have hs2 : (!(l.filter isStableSemver).isEmpty) = true := by simpa using hs
    rw [hs2]
    simp only [if_true]
    exact findLatestVersion_isSome _ (by simpa using hs)

/-! ## Characterization of `fixDistTags` -/

theorem jsFalsyStr_iff (o : Option String) :
    jsFalsyStr o = true ↔ o = none ∨ o = some "" := by
  rcases o with _ | s
  · simp [jsFalsyStr]
  · simp [jsFalsyStr]

theorem bool_not_true {b : Bool} (h : ¬ b = true) : b = false := by
  cases b
  · rfl
  · exact absurd rfl h

theorem lookup_keptTags (distTags : List (String × String))
    (avail : List (String × VersionManifest))
    (hnd : (distTags.map Prod.fst).Nodup) :
    (∀ t, distTags.lookup t = none →
      (distTags.filter (fun p => (avail.lookup p.2).isSome)).lookup t = none) ∧
    (∀ t v, distTags.lookup t = some v →
      (distTags.filter (fun p => (avail.lookup p.2).isSome)).lookup t =
        if (avail.lookup v).isSome = true then some v else none) := by
  induction distTags with
  | nil => exact ⟨fun t _ => rfl, fun t v h => by simp at h⟩
  | cons p l ih =>
    simp only [List.map_cons, List.nodup_cons] at hnd
    obtain ⟨hp, hnd2⟩ := hnd
    obtain ⟨ih1, ih2⟩ := ih hnd2
    cases p with
    | mk k2 v2 =>
      constructor
      · intro t ht
        by_cases hk : t = k2
        · subst hk
          simp [List.lookup_cons] at ht
        · have hbeq : (t == k2) = false := by simpa using hk
          simp only [List.lookup_cons, hbeq] at ht
          by_cases hsv : (avail.lookup v2).isSome = true
          · simp only [List.filter_cons, hsv, if_true, List.lookup_cons, hbeq]
            exact ih1 t ht
          · have hsv2 : (avail.lookup v2).isSome = false := bool_not_true hsv
            simp only [List.filter_cons, hsv2, Bool.false_eq_true, if_false]
            exact ih1 t ht
      · intro t v ht
        by_cases hk : t = k2
        · subst hk
          have hbeq : (t == t) = true := by simp
          simp only [List.lookup_cons, hbeq] at ht
          simp only [Option.some.injEq] at ht
          subst ht
          by_cases hsv : (avail.lookup v2).isSome = true
          · simp only [List.filter_cons, hsv, if_true, List.lookup_cons, hbeq,
              if_pos hsv]
          · have hsv2 : (avail.lookup v2).isSome = false := bool_not_true hsv
            simp only [List.filter_cons, hsv2, Bool.false_eq_true, if_false, if_neg hsv]
            refine lookup_eq_none_of_not_mem_keys _ _ (fun hmem => hp ?_)
            rcases List.mem_map.1 hmem with ⟨p2, hp2, hpe⟩
            exact List.mem_map.2 ⟨p2, List.mem_of_mem_filter hp2, hpe⟩
        · have hbeq : (t == k2) = false := by simpa using hk
          simp only [List.lookup_cons, hbeq] at ht
          by_cases hsv : (avail.lookup v2).isSome = true
          · simp only [List.filter_cons, hsv, if_true, List.lookup_cons, hbeq]
            exact ih2 t v ht
          · have hsv2 : (avail.lookup v2).isSome = false := bool_not_true hsv
            simp only [List.filter_cons, hsv2, Bool.false_eq_true, if_false]
            exact ih2 t v ht

theorem fixDistTags_spec (distTags : List (String × String))
    (avail : List (String × VersionManifest))
    (hnd : (distTags.map Prod.fst).Nodup) :
    (∀ t v, (fixDistTags distTags avail).lookup t = some v →
      (avail.lookup v).isSome = true) ∧
    (∀ t v, distTags.lookup t = some v → ¬(t = "latest" ∧ v = "") →
      ((fixDistTags distTags avail).lookup t = some v ↔ (avail.lookup v).isSome = true)) ∧
    (avail ≠ [] →
      (∀ v, distTags.lookup "latest" = some v → (avail.lookup v).isSome = true → v = "") →
      (∃ k ∈ avail.map Prod.fst, k ≠ "") →
      ∃ w, (fixDistTags distTags avail).lookup "latest" = some w ∧
        latestChoiceSpec (avail.map Prod.fst) w) := by
  unfold fixDistTags
  obtain ⟨hK1, hK2⟩ := lookup_keptTags distTags avail hnd
  -- the lookup of the kept-tags record is at most the original pair
  have hKsub : ∀ t v, (distTags.filter (fun p => (avail.lookup p.2).isSome)).lookup t =
      some v → distTags.lookup t = some v ∧ (avail.lookup v).isSome = true := by
    intro t v h
    rcases e : distTags.lookup t with _ | v0
    · rw [hK1 t e] at h
      simp at h
    · rw [hK2 t v0 e] at h
      by_cases hsv : (avail.lookup v0).isSome = true
      · rw [if_pos hsv] at h
        simp only [Option.some.injEq] at h
        subst h
        exact ⟨rfl, hsv⟩
      · rw [if_neg hsv] at h
        simp at h
  by_cases hve : (avail.map Prod.fst).isEmpty = true
  · have havail : avail = [] := by
      rcases avail with _ | ⟨p, rest⟩
      · rfl
      · simp at hve
    subst havail
    simp only [hve, if_true]
    refine ⟨?_, ?_, ?_⟩
    · intro t v h
      simp at h
    · intro t v hl hne
      constructor
      · intro h2
        simp at h2
      · intro h2
        simp at h2
    · intro hne _ _
      exact absurd rfl hne
  · simp only [hve, Bool.false_eq_true, if_false]
    by_cases hfal : jsFalsyStr ((distTags.filter
        (fun p => (avail.lookup p.2).isSome)).lookup "latest") = true
    · -- no truthy `latest` among the kept tags: one is synthesized
      rw [if_pos hfal]
      have hvl : avail.map Prod.fst ≠ [] := by
        rcases e : avail.map Prod.fst with _ | _
        · rw [e] at hve
          simp at hve
        · simp
      have hsome := findLatestStableVersion_isSome (avail.map Prod.fst) hvl
      obtain ⟨w, hw⟩ := Option.isSome_iff_exists.1 hsome
      simp only [hw]
      have hspec := findLatestStableVersion_spec (avail.map Prod.fst) hvl w hw
      have hwmem : w ∈ avail.map Prod.fst := latestChoiceSpec_mem _ _ hspec
      have hwsome : (avail.lookup w).isSome = true :=
        (lookup_isSome_iff_mem_keys avail w).2 hwmem
      by_cases hwe : w = ""
      · -- the synthesized string is falsy: the assignment is skipped
        rw [if_pos hwe]
        refine ⟨?_, ?_, ?_⟩
        · intro t v h
          exact (hKsub t v h).2
        · intro t v hl hne
          have hct := hK2 t v hl
          rw [hct]
          constructor
          · intro h
            by_cases hsv : (avail.lookup v).isSome = true
            · exact hsv
            · rw [if_neg hsv] at h
              simp at h
          · intro h
            rw [if_pos h]
        · intro _ _ hex
          exact absurd hwe (latestChoiceSpec_ne_empty _ _ hspec hex)
      · rw [if_neg hwe]
        refine ⟨?_, ?_, ?_⟩
        · intro t v h
          by_cases ht : t = "latest"
          · subst ht
            rw [lookup_recordSet_self] at h
            simp only [Option.some.injEq] at h
            subst h
            exact hwsome
          · rw [lookup_recordSet_other _ _ _ _ ht] at h
            exact (hKsub t v h).2
        · intro t v hl hne
          by_cases ht : t = "latest"
          · subst ht
            have hvne : v ≠ "" := fun hv => hne ⟨rfl, hv⟩
            constructor
            · intro h
              rw [lookup_recordSet_self] at h
              simp only [Option.some.injEq] at h
              subst h
              exact hwsome
            · intro h
              have hct := hK2 "latest" v hl
              rw [if_pos h] at hct
              rw [hct] at hfal
              rw [jsFalsyStr_iff] at hfal
              rcases hfal with h2 | h2
              · exact absurd h2 (by simp)
              · simp only [Option.some.injEq] at h2
                exact absurd h2 hvne
          · rw [lookup_recordSet_other _ _ _ _ ht]
            have hct := hK2 t v hl
            rw [hct]
            constructor
            · intro h
              by_cases hsv : (avail.lookup v).isSome = true
              · exact hsv
              · rw [if_neg hsv] at h
                simp at h
            · intro h
              rw [if_pos h]
        · intro _ _ _
          exact ⟨w, lookup_recordSet_self _ _ _, hspec⟩
    · -- a truthy `latest` survived: the kept tags are returned unchanged
      rw [if_neg hfal]
      refine ⟨?_, ?_, ?_⟩
      · intro t v h
        exact (hKsub t v h).2
      · intro t v hl hne
        have hct := hK2 t v hl
        rw [hct]
        constructor
        · intro h
          by_cases hsv : (avail.lookup v).isSome = true
          · exact hsv
          · rw [if_neg hsv] at h
            simp at h
        · intro h
          rw [if_pos h]
      · intro _ h2 _
        exfalso
        have hfal2 : jsFalsyStr ((distTags.filter
            (fun p => (avail.lookup p.2).isSome)).lookup "latest") = false := by
          simpa using hfal
        rcases e : (distTags.filter (fun p => (avail.lookup p.2).isSome)).lookup "latest"
          with _ | s
        · rw [e] at hfal2
          simp [jsFalsyStr] at hfal2
        · have hsne : s ≠ "" := by
            rw [e] at hfal2
            simpa [jsFalsyStr] using hfal2
          obtain ⟨hl2, hs2⟩ := hKsub "latest" s e
          exact absurd (h2 s hl2 hs2) hsne

/-! ## Concrete fixtures used by witnesses and counterexamples -/

/-- A minimal manifest fixture. -/
def fixManifest (v : String) : VersionManifest :=
  ⟨"test-package", v, []⟩

/-- The three-version fixture of the repository's unit tests:
`1.0.0 → 2023-01-01`, `2.0.0 → 2024-01-15`, `3.0.0 → 2024-06-01`. -/
def fixMetadata : PackageMetadata :=
  { name := "test-package"
    versions := [("1.0.0", fixManifest "1.0.0"), ("2.0.0", fixManifest "2.0.0"),
      ("3.0.0", fixManifest "3.0.0")]
    distTags := [("latest", "3.0.0")]
    time := some [("1.0.0", "2023-01-01T00:00:00.000Z"),
      ("2.0.0", "2024-01-15T00:00:00.000Z"), ("3.0.0", "2024-06-01T00:00:00.000Z")]
    rest := [] }

/-- Metadata whose versions record contains the empty-string key and
whose `latest` dist-tag points at it. -/
def emptyKeyMetadata : PackageMetadata :=
  { name := "pkg"
    versions := [("", ⟨"pkg", "", []⟩), ("1.0.0", ⟨"pkg", "1.0.0", []⟩)]
    distTags := [("latest", "")]
    time := some []
    rest := [] }

/-! ## The claims -/

/-- C1: for every package metadata and effective cutoff `c` — the code's
effective cutoff agrees with the claim's formulation as the earliest of
the global cutoff and the minimum of the selected date-kind denylist
cutoffs, either side dropping out when absent — a version whose time-map
entry parses to a valid instant survives the date-filtering step iff that
instant is at or before `c` (inclusive), and a version whose timestamp is
absent or unparsable survives regardless of `c`. -/
theorem claim1_date_filtering (md : PackageMetadata) (opts : FilterOptions) (c : Int)
    (hc : effectiveCutoffOf opts md.name = some c) :
    effectiveCutoffOf opts md.name = specEffectiveCutoff opts md.name ∧
    versionsAfterDate md opts = filterVersionsByDate md.versions md.time c ∧
    (∀ v m t inst, md.versions.lookup v = some m →
      md.time.bind (List.lookup v) = some t → jsDateParse t = some inst →
      ((filterVersionsByDate md.versions md.time c).lookup v = some m ↔ inst ≤ c)) ∧
    (∀ v m, md.versions.lookup v = some m →
      (md.time.bind (List.lookup v) = none ∨
        (∃ t, md.time.bind (List.lookup v) = some t ∧ jsDateParse t = none)) →
      (filterVersionsByDate md.versions md.time c).lookup v = some m) := by
  refine ⟨effectiveCutoffOf_eq_spec opts md.name, ?_, ?_, ?_⟩
  · unfold versionsAfterDate
    rw [hc]
  · intro v m t inst hv htl hparse
    rw [lookup_filterVersionsByDate]
    have hts : t ≠ "" := by
      intro he
      subst he
      rw [show jsDateParse "" = none from rfl] at hparse
      simp at hparse
    have hkeep : keepByDate md.time c v = decide (inst ≤ c) := by
      unfold keepByDate
      rw [htl]
      simp only [if_neg hts, hparse]
    rw [hkeep]
    by_cases hle : inst ≤ c
    · simp [hle, hv]
    · simp [hle]
  · intro v m hv hbad
    rw [lookup_filterVersionsByDate]
    have hkeep : keepByDate md.time c v = true := by
      unfold keepByDate
      rcases hbad with h1 | ⟨t, h1, h2⟩
      · rw [h1]
      · rw [h1]
        by_cases hts : t = ""
        · simp [hts]
        · simp [hts, h2]
    rw [hkeep, if_pos rfl]
    exact hv

/-- C1 witness: a concrete package, global cutoff and time map
instantiating the theorem. -/
theorem claim1_witness :
    effectiveCutoffOf ⟨jsDateParse "2024-01-01", [], []⟩ fixMetadata.name =
        some 1704067200000 ∧
    (effectiveCutoffOf ⟨jsDateParse "2024-01-01", [], []⟩ fixMetadata.name =
        specEffectiveCutoff ⟨jsDateParse "2024-01-01", [], []⟩ fixMetadata.name ∧
      versionsAfterDate fixMetadata ⟨jsDateParse "2024-01-01", [], []⟩ =
        filterVersionsByDate fixMetadata.versions fixMetadata.time 1704067200000 ∧
      (∀ v m t inst, fixMetadata.versions.lookup v = some m →
        fixMetadata.time.bind (List.lookup v) = some t → jsDateParse t = some inst →
        ((filterVersionsByDate fixMetadata.versions fixMetadata.time
            1704067200000).lookup v = some m ↔ inst ≤ 1704067200000)) ∧
      (∀ v m, fixMetadata.versions.lookup v = some m →
        (fixMetadata.time.bind (List.lookup v) = none ∨
          (∃ t, fixMetadata.time.bind (List.lookup v) = some t ∧ jsDateParse t = none)) →
        (filterVersionsByDate fixMetadata.versions fixMetadata.time
          1704067200000).lookup v = some m)) :=
  ⟨by decide, claim1_date_filtering fixMetadata ⟨jsDateParse "2024-01-01", [], []⟩
    1704067200000 (by decide)⟩

/-- C2: a version matched (by `semver.satisfies`) both by a version-kind
denylist rule selected for the package and by an allowlist rule selected
for the package is absent from the versions of the filter's output:
denylist removal runs after allowlist restoration. -/
theorem claim2_denylist_wins (md : PackageMetadata) (opts : FilterOptions)
    (v rg : String) (r : DenylistRule) (a : AllowlistRule)
    (hr : r ∈ opts.denylistRules) (hrv : r = .version md.name rg)
    (hsat : semverSatisfies v rg = true)
    (ha : a ∈ opts.allowlistRules) (hap : a.package = md.name)
    (hasat : semverSatisfies v a.range = true) :
    (filterPackageMetadata md opts).versions.lookup v = none := by
  show (versionsAfterBlock md opts).lookup v = none
  have hrp : r ∈ packageDenylistRulesOf opts md.name := by
    refine List.mem_filter.2 ⟨hr, ?_⟩
    rw [hrv]
    simp [DenylistRule.pkg]
  have hrk : r ∈ (packageDenylistRulesOf opts md.name).filter DenylistRule.isVersionKind := by
    refine List.mem_filter.2 ⟨hrp, ?_⟩
    rw [hrv]
    rfl
  have hrb : rg ∈ blockedRangesOf opts md.name := by
    refine List.mem_map.2 ⟨r, hrk, ?_⟩
    rw [hrv]
    rfl
  have hbne : (blockedRangesOf opts md.name).isEmpty = false := by
    rcases e : blockedRangesOf opts md.name with _ | _
    · rw [e] at hrb
      simp at hrb
    · rfl
  unfold versionsAfterBlock
  rw [hbne]
  simp only [Bool.not_false, if_true]
  rw [lookup_removeBlockedVersions]
  rw [if_pos (List.any_eq_true.2 ⟨rg, hrb, hsat⟩)]

/-- C2 witness: a concrete version blocked and allowlisted at once. -/
theorem claim2_witness :
    (DenylistRule.version "test-package" "3.0.0" ∈
      [DenylistRule.version "test-package" "3.0.0"]) ∧
    semverSatisfies "3.0.0" "3.0.0" = true ∧
    (filterPackageMetadata fixMetadata
      ⟨none, [DenylistRule.version "test-package" "3.0.0"],
        [⟨"test-package", "3.0.0"⟩]⟩).versions.lookup "3.0.0" = none :=
  ⟨by decide, by decide,
    claim2_denylist_wins fixMetadata
      ⟨none, [DenylistRule.version "test-package" "3.0.0"], [⟨"test-package", "3.0.0"⟩]⟩
      "3.0.0" "3.0.0" (DenylistRule.version "test-package" "3.0.0")
      ⟨"test-package", "3.0.0"⟩ (by decide) rfl (by decide) (by decide) rfl (by decide)⟩

/-- C3 counterexample: in `emptyKeyMetadata` the original pair
`latest → ""` has its version survive filtering (no rules apply), yet the
pair is not kept: the code tests the kept `latest` value for truthiness,
the empty string is falsy in JS, and the tag is re-synthesized to
`1.0.0`.  This refutes the claim that each original tag→version pair is
kept iff that version survived filtering. -/
theorem claim3_counterexample :
    emptyKeyMetadata.distTags.lookup "latest" = some "" ∧
    ((filterPackageMetadata emptyKeyMetadata ⟨none, [], []⟩).versions.lookup "").isSome
      = true ∧
    ¬((filterPackageMetadata emptyKeyMetadata ⟨none, [], []⟩).distTags.lookup "latest"
      = some "") := by
  refine ⟨by decide, by decide, by decide⟩

/-- C3 (amended): every value of the output dist-tags is a key of the
output versions; each original tag→version pair — except a `latest` tag
whose version string is empty, which the code treats as absent — is kept
iff that version survived filtering; and whenever versions survive, no
original `latest` pair with a nonempty version survived, and not every
surviving version key is the empty string (the code guards the
assignment of the synthesized tag with JS truthiness, so a falsy
empty-string choice is not installed), a `latest` is synthesized as the
highest stable surviving version under semantic-version ordering, else
the highest surviving semantic version including prereleases, else the
lexicographic maximum of the raw strings. -/
theorem claim3_dist_tags (md : PackageMetadata) (opts : FilterOptions)
    (hnd : (md.distTags.map Prod.fst).Nodup) :
    (∀ t v, (filterPackageMetadata md opts).distTags.lookup t = some v →
      (((filterPackageMetadata md opts).versions.lookup v).isSome = true)) ∧
    (∀ t v, md.distTags.lookup t = some v → ¬(t = "latest" ∧ v = "") →
      ((filterPackageMetadata md opts).distTags.lookup t = some v ↔
        (((filterPackageMetadata md opts).versions.lookup v).isSome = true))) ∧
    ((filterPackageMetadata md opts).versions ≠ [] →
      (∀ v, md.distTags.lookup "latest" = some v →
        (((filterPackageMetadata md opts).versions.lookup v).isSome = true) → v = "") →
      (∃ k ∈ (filterPackageMetadata md opts).versions.map Prod.fst, k ≠ "") →
      ∃ w, (filterPackageMetadata md opts).distTags.lookup "latest" = some w ∧
        latestChoiceSpec ((filterPackageMetadata md opts).versions.map Prod.fst) w) :=
  fixDistTags_spec md.distTags (versionsAfterBlock md opts) hnd

/-- C3 witness: the amended theorem applied to the three-version fixture
under a cutoff that removes the original `latest`. -/
theorem claim3_witness :
    ((fixMetadata.distTags.map Prod.fst).Nodup) ∧
    (∀ t v, (filterPackageMetadata fixMetadata
        ⟨jsDateParse "2024-01-01", [], []⟩).distTags.lookup t = some v →
      (((filterPackageMetadata fixMetadata
        ⟨jsDateParse "2024-01-01", [], []⟩).versions.lookup v).isSome = true)) :=
  ⟨by decide,
    (claim3_dist_tags fixMetadata ⟨jsDateParse "2024-01-01", [], []⟩ (by decide)).1⟩

/-- C4 (code-bug exhibit): `close()` called while the watcher is still in
its existence-retry phase is a no-op — `isWatching` is false, so the
pending 5000ms retry timeout survives `close()`, later installs the stat
watcher, and the callback then fires after `close()` has returned,
contradicting the claim (and `close`'s own documentation). -/
theorem claim4_close_retry_bug :
    watcherStep (watchFileInit false) .closeCall = watchFileInit false ∧
    (watchFileInit false).pendingRetry = true ∧
    (watcherRun (watchFileInit false)
      [.closeCall, .retryFires true, .statTick true]).callbackCount = 1 := by
  decide

/-- C5: with no global cutoff and both rule lists empty, the filter entry
point returns the original metadata unchanged. -/
theorem claim5_identity (md : PackageMetadata) :
    filterMetadataEntry none [] [] md = .ok md := by
  simp [filterMetadataEntry]

/-- C6 counterexample: the expression `not-semver` is accepted as a
version-kind denylist rule at parse time, but a version whose string is
exactly equal to that expression still survives denylist removal, because
matching is `semver.satisfies` only and an invalid range matches nothing.
This refutes the claim's "removed iff it matches … by exact string
equality or by semver-range satisfaction". -/
theorem claim6_counterexample :
    parseDenylistLine "mypkg@not-semver" =
      some (DenylistRule.version "mypkg" "not-semver") ∧
    (removeBlockedVersions [("not-semver", ⟨"mypkg", "not-semver", []⟩)]
      ["not-semver"]).lookup "not-semver" = some ⟨"mypkg", "not-semver", []⟩ := by
  decide

/-- C6 (amended): in the denylist-removal step a version is removed iff
`semver.satisfies` holds of it and at least one selected version-kind
expression; expressions that are not valid semver ranges are accepted as
rules at parse time but match no version at filter time (there is no
exact-string fallback). -/
theorem claim6_denylist_matching (versions : List (String × VersionManifest))
    (blockedRanges : List String) (v r : String)
    (hr : semverValidRange r = false) :
    ((removeBlockedVersions versions blockedRanges).lookup v =
      if blockedRanges.any (fun range => semverSatisfies v range) then none
      else versions.lookup v) ∧
    semverSatisfies v r = false := by
  refine ⟨lookup_removeBlockedVersions versions blockedRanges v, ?_⟩
  unfold semverValidRange at hr
  unfold semverSatisfies
  rcases e : parseRange r with _ | alts
  · rcases e2 : semverParse v with _ | sv <;> simp [e, e2]
  · rw [e] at hr
    simp at hr

/-- C6 witness: the amended theorem at the counterexample's inputs. -/
theorem claim6_witness :
    semverValidRange "not-semver" = false ∧
    (((removeBlockedVersions [("not-semver", ⟨"mypkg", "not-semver", []⟩)]
        ["not-semver"]).lookup "not-semver" =
      if (["not-semver"].any (fun range => semverSatisfies "not-semver" range)) then none
      else ([("not-semver", (⟨"mypkg", "not-semver", []⟩ : VersionManifest))]).lookup
        "not-semver") ∧
      semverSatisfies "not-semver" "not-semver" = false) :=
  ⟨by decide, claim6_denylist_matching [("not-semver", ⟨"mypkg", "not-semver", []⟩)]
    ["not-semver"] "not-semver" "not-semver" (by decide)⟩

/-- C7: when any filtering is configured, the entry point signals the
"all versions filtered" error exactly when the filtered versions record
is empty, and returns the filtered metadata when at least one version
survives. -/
theorem claim7_empty_result (g : Option Int) (dl : List DenylistRule)
    (al : List AllowlistRule) (md : PackageMetadata)
    (h : ¬(g = none ∧ dl = [] ∧ al = [])) :
    (filterMetadataEntry g dl al md =
        .error ("All versions of " ++ md.name ++ " are filtered by vintage plugin") ↔
      (filterPackageMetadata md ⟨g, dl, al⟩).versions = []) ∧
    ((filterPackageMetadata md ⟨g, dl, al⟩).versions ≠ [] →
      filterMetadataEntry g dl al md = .ok (filterPackageMetadata md ⟨g, dl, al⟩)) := by
  unfold filterMetadataEntry
  rw [if_neg h]
  by_cases hlen : (filterPackageMetadata md ⟨g, dl, al⟩).versions.length = 0
  · have hnil : (filterPackageMetadata md ⟨g, dl, al⟩).versions = [] :=
      List.length_eq_zero.1 hlen
    rw [if_pos hlen]
    exact ⟨⟨fun _ => hnil, fun _ => rfl⟩, fun hne => absurd hnil hne⟩
  · have hne : (filterPackageMetadata md ⟨g, dl, al⟩).versions ≠ [] := by
      intro he
      rw [he] at hlen
      simp at hlen
    rw [if_neg hlen]
    refine ⟨⟨fun he => ?_, fun he => absurd he hne⟩, fun _ => rfl⟩
    exact absurd he (by simp)

/-- C7 witness: a cutoff that removes every version yields the error; a
permissive configuration returns the filtered metadata. -/
theorem claim7_witness :
    ¬((jsDateParse "2020-01-01" : Option Int) = none ∧
        ([] : List DenylistRule) = [] ∧ ([] : List AllowlistRule) = []) ∧
    ((filterMetadataEntry (jsDateParse "2020-01-01") [] [] fixMetadata =
        .error ("All versions of " ++ fixMetadata.name ++
          " are filtered by vintage plugin") ↔
      (filterPackageMetadata fixMetadata ⟨jsDateParse "2020-01-01", [], []⟩).versions
        = []) ∧
    ((filterPackageMetadata fixMetadata
        ⟨jsDateParse "2020-01-01", [], []⟩).versions ≠ [] →
      filterMetadataEntry (jsDateParse "2020-01-01") [] [] fixMetadata =
        .ok (filterPackageMetadata fixMetadata ⟨jsDateParse "2020-01-01", [], []⟩))) :=
  ⟨by decide, claim7_empty_result (jsDateParse "2020-01-01") [] [] fixMetadata
    (by decide)⟩

/-- C8: the file-content parser returns the rules of all successfully
parsed lines together with one `(lineNumber, rawContent)` record, in file
order with 1-based numbering, for each non-blank, non-comment line that
fails to parse; concretely, the denylist line `lodash@2024-99-99` (a
date-shaped value that is an invalid calendar date) yields a parse error
at line 2 and no rule, while the valid lines around it still produce
their rules. -/
theorem claim8_parse_errors :
    (∀ (T : Type) (pl : String → Option T) (content : String),
      (parseFileContent content pl).rules =
          ((splitLines content).filter (fun l => !skipLine l)).filterMap pl ∧
      (parseFileContent content pl).errors =
          (((splitLines content).enum.filter
            (fun p => !skipLine p.2 && (pl p.2).isNone)).map (fun p => (p.1 + 1, p.2)))) ∧
    (parseDenylistContent "lodash@4.17.21\nlodash@2024-99-99\nreact@2024-01-01").errors
        = [(2, "lodash@2024-99-99")] ∧
    (parseDenylistContent
        "lodash@4.17.21\nlodash@2024-99-99\nreact@2024-01-01").rules.length = 2 ∧
    ((parseDenylistContent
        "lodash@4.17.21\nlodash@2024-99-99\nreact@2024-01-01").rules.map
      DenylistRule.pkg) = ["lodash", "react"] := by
  refine ⟨fun T pl content => parseFileContent_spec pl content, ?_, ?_, ?_⟩
  · decide
  · decide
  · decide

/-- C9: the output versions record never contains a version absent from
the input, and every surviving version keeps exactly its original
manifest (so an allowlist rule naming a nonexistent version has no
effect). -/
theorem claim9_versions_subset (md : PackageMetadata) (opts : FilterOptions)
    (hnd : (md.versions.map Prod.fst).Nodup) (v : String) (m : VersionManifest)
    (h : (filterPackageMetadata md opts).versions.lookup v = some m) :
    md.versions.lookup v = some m :=
  lookup_versionsAfterBlock_sub md opts hnd v m h

/-- C9 witness: an allowlist rule naming the nonexistent version `9.9.9`
adds nothing, and the surviving version keeps its manifest. -/
theorem claim9_witness :
    ((fixMetadata.versions.map Prod.fst).Nodup) ∧
    (filterPackageMetadata fixMetadata
        ⟨jsDateParse "2024-01-01", [], [⟨"test-package", "9.9.9"⟩]⟩).versions.lookup
      "1.0.0" = some (fixManifest "1.0.0") ∧
    fixMetadata.versions.lookup "1.0.0" = some (fixManifest "1.0.0") :=
  ⟨by decide, by decide,
    claim9_versions_subset fixMetadata
      ⟨jsDateParse "2024-01-01", [], [⟨"test-package", "9.9.9"⟩]⟩ (by decide)
      "1.0.0" (fixManifest "1.0.0") (by decide)⟩

/-- C10: the pure filter always emits a `time` record — an input without
one gets an empty record rather than no field — so on such inputs the
output is never structurally identical to the input, even with no rules
at all. -/
theorem claim10_time_always_present (md : PackageMetadata) (opts : FilterOptions) :
    ((filterPackageMetadata md opts).time).isSome = true ∧
    (md.time = none → filterPackageMetadata md opts ≠ md) := by
  refine ⟨rfl, ?_⟩
  intro hnone heq
  have ht : (filterPackageMetadata md opts).time = md.time := by rw [heq]
  rw [hnone] at ht
  exact absurd ht (by simp [filterPackageMetadata])

/-- C10 witness: a no-time input under the empty rule set. -/
theorem claim10_witness :
    (((filterPackageMetadata ⟨"p", [("1.0.0", fixManifest "1.0.0")], [], none, []⟩
        ⟨none, [], []⟩).time).isSome = true) ∧
    filterPackageMetadata ⟨"p", [("1.0.0", fixManifest "1.0.0")], [], none, []⟩
        ⟨none, [], []⟩ ≠
      ⟨"p", [("1.0.0", fixManifest "1.0.0")], [], none, []⟩ :=
  ⟨(claim10_time_always_present _ _).1, (claim10_time_always_present _ _).2 rfl⟩

end Vintage
